import Mathlib

/-!
Shallow embedding of the `wordle-helper` repository (Rust) in Lean 4,
with theorems settling the frozen claims about its specification.

Source files embedded: `src/word.rs`, `src/play.rs`, `src/guess.rs`,
`src/dictionary.rs`.  Machine integers (`u8`, `u32`, `u64`/`usize`) are
modelled as `Nat`; every operation that could overflow or saturate in the
source carries the explicit bound (`% 2 ^ 64`, `min _ (2 ^ 64 - 1)`).
The dictionary (`FIVE_LETTER_WORDS`, loaded from `list.txt`, a data asset
not present under `src/`) is a parameter `dict : List Word` throughout.
-/

namespace Wordle

/-- `Letter` from `src/word.rs`: 26 values `A`–`Z`, `repr(u8)` with the
ASCII code as discriminant.  Totally ordered by the ASCII code, which
coincides with constructor order. -/
inductive Letter where
  | A | B | C | D | E | F | G | H | I | J | K | L | M
  | N | O | P | Q | R | S | T | U | V | W | X | Y | Z
deriving DecidableEq, Repr

/-- `Letter::to_u8` from `src/word.rs`: the ASCII code `b'A'..=b'Z'` of the
letter (the enum's `repr(u8)` discriminant). -/
def Letter.to_u8 : Letter → Nat
  | .A => 65 | .B => 66 | .C => 67 | .D => 68 | .E => 69 | .F => 70
  | .G => 71 | .H => 72 | .I => 73 | .J => 74 | .K => 75 | .L => 76
  | .M => 77 | .N => 78 | .O => 79 | .P => 80 | .Q => 81 | .R => 82
  | .S => 83 | .T => 84 | .U => 85 | .V => 86 | .W => 87 | .X => 88
  | .Y => 89 | .Z => 90

/-- The letter with ordinal index `i` (`A = 0`, ..., `Z = 25`): the
inverse of the `repr(u8)` discriminant map, shifted by `b'A'`. -/
def Letter.ofIndex (i : Fin 26) : Letter :=
  match i.val with
  | 0 => .A | 1 => .B | 2 => .C | 3 => .D | 4 => .E | 5 => .F
  | 6 => .G | 7 => .H | 8 => .I | 9 => .J | 10 => .K | 11 => .L
  | 12 => .M | 13 => .N | 14 => .O | 15 => .P | 16 => .Q | 17 => .R
  | 18 => .S | 19 => .T | 20 => .U | 21 => .V | 22 => .W | 23 => .X
  | 24 => .Y | _ => .Z

/-- `Letter::from_u8` from `src/word.rs`: `Some` exactly on the ASCII
range `b'A'..=b'Z'` (65–90, the `matches!(b, b'A'..=b'Z')` guard), where
the byte is reinterpreted as the `Letter` with that discriminant
(`from_u8_unchecked`'s transmute). -/
def Letter.from_u8 (b : Nat) : Option Letter :=
  if h : 65 ≤ b ∧ b ≤ 90 then some (Letter.ofIndex ⟨b - 65, by omega⟩)
  else none

/-- `Letter::index` from `src/word.rs`: `A -> 0`, ..., `Z -> 25`
(`self as u8 - b'A'`). -/
def Letter.index (c : Letter) : Nat := c.to_u8 - 65

/-- `Word` from `src/word.rs`: `pub struct Word(pub [Letter; 5])`, an
ordered sequence of exactly 5 letters. -/
structure Word where
  letters : List Letter
  len5 : letters.length = 5

instance : DecidableEq Word := fun a b =>
  if h : a.letters = b.letters then
    .isTrue (by cases a; cases b; simpa using h)
  else
    .isFalse (by intro hab; exact h (congrArg Word.letters hab))

/-- Indexing `word.0[i]` for `i < 5`. -/
def Word.get (w : Word) (i : Fin 5) : Letter :=
  w.letters.get ⟨i, by rw [w.len5]; exact i.isLt⟩

/-- `word.0.contains(&ch)` from the source: the letter occurs at some slot. -/
def Word.holds (w : Word) (ch : Letter) : Bool := w.letters.contains ch

/-- `Word::from_bytes` from `src/word.rs`: accepts exactly the byte arrays
matching `[b'A'..=b'Z'; 5]` and reinterprets each byte as the `Letter` with
that discriminant.  The per-byte range check of the source's `matches!`
pattern is expressed here via `Letter.from_u8`, which is `some` exactly on
`b'A'..=b'Z'`. -/
def Word.from_bytes (b0 b1 b2 b3 b4 : Nat) : Option Word :=
  match Letter.from_u8 b0, Letter.from_u8 b1, Letter.from_u8 b2,
        Letter.from_u8 b3, Letter.from_u8 b4 with
  | some c0, some c1, some c2, some c3, some c4 =>
      some ⟨[c0, c1, c2, c3, c4], rfl⟩
  | _, _, _, _, _ => none

/-- `Word::to_bytes` from `src/word.rs`: each letter back to its ASCII code. -/
def Word.to_bytes (w : Word) : List Nat := w.letters.map Letter.to_u8

/-- `LetterFeedback` from `src/guess.rs`, discriminants
`Excluded = 0 < Required = 1 < Confirmed = 2`. -/
inductive LetterFeedback where
  | Excluded | Required | Confirmed
deriving DecidableEq, Repr, Fintype

/-- The `repr(u8)` discriminant of a `LetterFeedback`. -/
def LetterFeedback.disc : LetterFeedback → Nat
  | .Excluded => 0 | .Required => 1 | .Confirmed => 2

/-- `WordFeedback` from `src/guess.rs`: `[LetterFeedback; 5]`
(`repr(C, align(8))`). -/
structure WordFeedback where
  fb : List LetterFeedback
  len5 : fb.length = 5

instance : DecidableEq WordFeedback := fun a b =>
  if h : a.fb = b.fb then
    .isTrue (by cases a; cases b; simpa using h)
  else
    .isFalse (by intro hab; exact h (congrArg WordFeedback.fb hab))

/-- Indexing `feedback[i]` for `i < 5`. -/
def WordFeedback.get (f : WordFeedback) (i : Fin 5) : LetterFeedback :=
  f.fb.get ⟨i, by rw [f.len5]; exact i.isLt⟩

/-- `WordFeedback::to_u64` from `src/guess.rs`: the `u64` obtained by
reinterpreting the 8-byte struct.  On the little-endian targets the code
runs on, byte `i` of the `u64` is the discriminant of slot `i`, so the
value is `Σ disc(f i) · 256^i`; the 3 trailing padding bytes are modelled
as zero. -/
def WordFeedback.to_u64 (f : WordFeedback) : Nat :=
  (f.fb.enum.map (fun (i, c) => c.disc * 256 ^ i)).sum

/-- `Ord for WordFeedback` from `src/guess.rs`: compares `to_u64` values. -/
def WordFeedback.cmp (a b : WordFeedback) : Ordering :=
  compare a.to_u64 b.to_u64

/-- `Hash for WordFeedback` from `src/guess.rs` hashes `to_u64`; the value
fed to the hasher is the model of the hash. -/
def WordFeedback.hashKey (f : WordFeedback) : Nat := f.to_u64

/-- `check_word` from `src/play.rs`: slot `i` of the feedback is
`Confirmed` if `word[i] == guess[i]`, else `Required` if `word` contains
`guess[i]` anywhere, else `Excluded`. -/
def check_word (word guess : Word) : WordFeedback :=
  ⟨(List.finRange 5).map (fun i =>
      if word.get i = guess.get i then LetterFeedback.Confirmed
      else if word.holds (guess.get i) then LetterFeedback.Required
      else LetterFeedback.Excluded),
   by simp⟩

/-- `Positions` from `src/guess.rs`: a 5-bit set of slot indices
(`bitflags` over `P1..P5`), modelled as a finite set of `Fin 5`.
`union` is `∪`, `complement` (which masks to the 5 defined bits) is `ᶜ`,
`bits().count_ones()` is `card`, and `into_index` on a singleton is the
least (= only) element, matching `trailing_zeros`. -/
abbrev Positions := Finset (Fin 5)

/-- `Guesser` from `src/guess.rs`.  `excluded` and `required` are kept
sorted by letter (ASCII order); `confirmed` is the `[Option<Letter>; 5]`
array as a function. -/
structure Guesser where
  candidates : List Word
  excluded : List Letter
  required : List (Letter × Positions)
  confirmed : Fin 5 → Option Letter
deriving DecidableEq

/-- `c.is_some_and(|c| c != ch)` from `Guesser::pidgeon`. -/
def isOtherConfirmed (ch : Letter) : Option Letter → Bool
  | some c => c ≠ ch
  | none => false

/-- `Guesser::confirm`: `self.confirmed[idx] = Some(ch)`. -/
def Guesser.confirm (st : Guesser) (idx : Fin 5) (ch : Letter) : Guesser :=
  { st with confirmed := Function.update st.confirmed idx (some ch) }

/-- The `confirmed_positions` set computed in `Guesser::pidgeon`: slots
whose confirmed letter exists and differs from `ch`. -/
def Guesser.confirmedOther (st : Guesser) (ch : Letter) : Positions :=
  Finset.univ.filter (fun i => isOtherConfirmed ch (st.confirmed i) = true)

/-- The `possible_positions` set computed in `Guesser::pidgeon`:
`(p ∪ confirmed_positions).complement()`. -/
def Guesser.possible (st : Guesser) (ch : Letter) (p : Positions) : Positions :=
  (p ∪ st.confirmedOther ch)ᶜ

/-- `Guesser::pidgeon` from `src/guess.rs`.  `none` models the
`assert_ne!(num_possible_positions, 0, ...)` panic (the fatal
contradiction); `some (promoted?, state)` is the normal return.  Callers
only pass `idx < required.len()`; an out-of-range index (which would be a
Rust indexing panic, unreachable from the callers) returns the state
unchanged. -/
def Guesser.pidgeon (st : Guesser) (idx : Nat) : Option (Bool × Guesser) :=
  match st.required[idx]? with
  | none => some (false, st)
  | some (ch, p) =>
    let poss := st.possible ch p
    if h0 : poss.card = 0 then none
    else if poss.card = 1 then
      let onlyOpen := poss.min' (Finset.card_pos.mp (Nat.pos_of_ne_zero h0))
      some (true, { st.confirm onlyOpen ch with
                    required := st.required.eraseIdx idx })
    else some (false, st)

/-- Sorted idempotent insert into `excluded`
(`binary_search` + `insert` on the alphabetically sorted list in
`Guesser::analyze`, Excluded arm). -/
def insertExcluded (ch : Letter) : List Letter → List Letter
  | [] => [ch]
  | c :: rest =>
      if ch = c then c :: rest
      else if ch.to_u8 < c.to_u8 then ch :: c :: rest
      else c :: insertExcluded ch rest

/-- The Required arm's update of `required` in `Guesser::analyze`:
`binary_search_by_key` on the letter-sorted list; on a hit, add slot `pos`
to that entry's forbidden-position set; on a miss, insert a fresh entry
`(ch, {pos})` at the sorted position.  Returns the index of the affected
entry (the `idx` subsequently fed to `pidgeon`) with the updated list. -/
def requiredInsert (ch : Letter) (pos : Fin 5) :
    List (Letter × Positions) → Nat × List (Letter × Positions)
  | [] => (0, [(ch, {pos})])
  | (c, p) :: rest =>
      if ch = c then (0, (c, insert pos p) :: rest)
      else if ch.to_u8 < c.to_u8 then (0, (ch, {pos}) :: (c, p) :: rest)
      else
        let r := requiredInsert ch pos rest
        (r.1 + 1, (c, p) :: r.2)

/-- The Confirmed arm's removal from `required` in `Guesser::analyze`:
`binary_search_by_key` for `ch` and `remove` on a hit (the first — and on
the sorted-unique list, only — entry with that letter). -/
def removeRequired (ch : Letter) : List (Letter × Positions) → List (Letter × Positions)
  | [] => []
  | (c, p) :: rest => if c = ch then rest else (c, p) :: removeRequired ch rest

/-- One scan of the `'outer` drain loop at the end of `Guesser::analyze`:
try `pidgeon` on indices `i, i+1, ...` while fewer than `rem` indices
remain unvisited.  `none` propagates the pidgeon panic; `some (some st')`
means an index promoted (the loop restarts with `st'`); `some none` means
the scan completed with no promotion.  The countdown `rem` (instantiated
to `required.length - i`, see `Guesser.drainPass`) makes the recursion
structural; it mirrors the `for i in 0..self.required.len()` bound. -/
def drainPassFrom (st : Guesser) : Nat → Nat → Option (Option Guesser)
  | _, 0 => some none
  | i, rem + 1 =>
      match st.pidgeon i with
      | none => none
      | some (true, st') => some (some st')
      | some (false, _) => drainPassFrom st (i + 1) rem

/-- One full pass of the drain loop starting at index `i`. -/
def Guesser.drainPass (st : Guesser) (i : Nat) : Option (Option Guesser) :=
  drainPassFrom st i (st.required.length - i)

theorem pidgeon_true_length {st st' : Guesser} {idx : Nat}
    (h : st.pidgeon idx = some (true, st')) :
    st'.required.length < st.required.length := by
  unfold Guesser.pidgeon at h
  cases hg : st.required[idx]? with
  | none => rw [hg] at h; simp at h
  | some cp =>
      rw [hg] at h
      obtain ⟨ch, p⟩ := cp
      have hidx : idx < st.required.length := (List.getElem?_eq_some.mp hg).1
      simp only at h
      split_ifs at h with h0 h1
      · simp only [Option.some.injEq, Prod.mk.injEq, true_and] at h
        subst h
        simp only [List.length_eraseIdx, hidx, if_true]
        omega
      · simp at h

theorem drainPassFrom_some_length {st : Guesser} {st' : Guesser} :
    ∀ {rem i : Nat}, drainPassFrom st i rem = some (some st') →
      st'.required.length < st.required.length := by
  intro rem
  induction rem with
  | zero => intro i h; simp [drainPassFrom] at h
  | succ rem ih =>
      intro i h
      unfold drainPassFrom at h
      cases hp : st.pidgeon i with
      | none => rw [hp] at h; cases h
      | some r =>
          rw [hp] at h
          obtain ⟨b, st₁⟩ := r
          cases b with
          | true =>
              simp only [Option.some.injEq, Option.some.injEq] at h
              cases h
              exact pidgeon_true_length hp
          | false => exact ih h

theorem drainPass_some_length {st : Guesser} {i : Nat} {st' : Guesser}
    (h : st.drainPass i = some (some st')) :
    st'.required.length < st.required.length :=
  drainPassFrom_some_length h

/-- The body of the `'outer` drain loop of `Guesser::analyze`: repeat
passes until one completes with no promotion.  Each promotion strictly
shrinks `required` (`drainPass_some_length`), so the fuel
`required.length + 1` supplied by `Guesser.drain` never runs out: the
fuel-exhausted branch is unreachable from `drain`. -/
def drainLoop : Nat → Guesser → Option Guesser
  | 0, st => some st
  | fuel + 1, st =>
      match st.drainPass 0 with
      | none => none
      | some none => some st
      | some (some st') => drainLoop fuel st'

/-- The whole `'outer` drain loop of `Guesser::analyze`. -/
def Guesser.drain (st : Guesser) : Option Guesser :=
  drainLoop (st.required.length + 1) st

/-- `chars.map(|(c, _)| c)` in `Guesser::analyze`: the guessed word. -/
def wordOf (chars : Fin 5 → Letter × LetterFeedback) : Word :=
  ⟨(List.finRange 5).map (fun i => (chars i).1), by simp⟩

/-- The `matches!` guard at the top of `Guesser::analyze`: every slot
Confirmed. -/
def allConfirmed (chars : Fin 5 → Letter × LetterFeedback) : Bool :=
  decide (∀ i : Fin 5, (chars i).2 = LetterFeedback.Confirmed)

/-- One iteration of the `for (i, (ch, stat))` loop in `Guesser::analyze`. -/
def Guesser.analyzeStep (st : Guesser) (i : Fin 5) (ch : Letter) :
    LetterFeedback → Option Guesser
  | .Excluded => some { st with excluded := insertExcluded ch st.excluded }
  | .Required =>
      (Guesser.pidgeon { st with required := (requiredInsert ch i st.required).2 }
          (requiredInsert ch i st.required).1).map (fun x => x.2)
  | .Confirmed =>
      let st' := st.confirm i ch
      some { st' with required := removeRequired ch st'.required }

/-- `Guesser::analyze` from `src/guess.rs`: unless the guess was fully
confirmed, drop the guessed word from `candidates` (first occurrence, if
present); then process the 5 slots in order; then drain the pigeonhole
deduction to a fixpoint.  `none` models the pidgeon panic. -/
def Guesser.analyze (st : Guesser) (chars : Fin 5 → Letter × LetterFeedback) :
    Option Guesser :=
  ((List.finRange 5).foldlM
      (fun s i => Guesser.analyzeStep s i (chars i).1 (chars i).2)
      (if allConfirmed chars then st
       else { st with candidates := st.candidates.erase (wordOf chars) })).bind
    Guesser.drain

/-- Insert `a` into a list already sorted by key `k`, placing it before the
first element whose key is not smaller.  Keeping `a` ahead of equal keys
makes the resulting sort stable (equal-key elements keep their input
order), which is the behavior guaranteed by Rust's stable
`slice::sort_by_key` / `sort_by_cached_key` used throughout the source;
a stable sort's output is uniquely determined by the keys and the input
order, so this is *the* model of those calls. -/
def insSorted {α K : Type} [LinearOrder K] (k : α → K) (a : α) : List α → List α
  | [] => [a]
  | b :: l => if k b < k a then b :: insSorted k a l else a :: b :: l

/-- Stable sort by key (see `insSorted`). -/
def stableSortBy {α K : Type} [LinearOrder K] (k : α → K) : List α → List α
  | [] => []
  | a :: l => insSorted k a (stableSortBy k l)

/-- The per-slot letter-frequency table computed at the top of
`sort_by_frequency` (`src/dictionary.rs`): `freqTable words i c` counts
the words of the list whose slot `i` holds letter `c`. -/
def freqTable (words : List Word) (i : Fin 5) (c : Letter) : Nat :=
  (words.filter (fun w => w.get i = c)).length

/-- The first sort key of `sort_by_frequency`:
`u32::MAX - Σ_i freq[i][word[i]]` (ascending), i.e. descending score. -/
def sortKeyFreq (words : List Word) (w : Word) : Nat :=
  2 ^ 32 - 1 - ((List.finRange 5).map (fun i => freqTable words i (w.get i))).sum

/-- Modelled from the spec: `Word::is_unique`, used by
`sort_by_frequency` (`src/dictionary.rs`) and `encode_burner`
(`src/guess.rs`), is not defined in any file under `src/`.  Per the
spec's words it holds of "words containing 5 distinct letters" (no
repeated letter). -/
def Word.isUnique (w : Word) : Bool := decide w.letters.Nodup

/-- `sort_by_frequency` from `src/dictionary.rs`: stable sort descending
by positional-frequency score, then stable partition of
distinct-letter words to the front (`sort_by_cached_key(!is_unique)`). -/
def sort_by_frequency (words : List Word) : List Word :=
  stableSortBy (fun w => !w.isUnique) (stableSortBy (sortKeyFreq words) words)

/-- The `include` closure of `Guesser::prune` (`src/guess.rs`):
(a) every confirmed slot matches (`b.is_none_or(|b| a == b)` zipped over
the slots); (b) no letter of the word is in `excluded` (the sorted-list
`binary_search` hit is membership); (c) for every required `(r, p)`: the
word contains `r`, and every slot holding `r` whose `confirmed` entry is
`None` lies outside `p`. -/
def Guesser.keeps (st : Guesser) (word : Word) : Bool :=
  decide (∀ i : Fin 5, ∀ b, st.confirmed i = some b → word.get i = b) &&
  !(word.letters.any (fun ch => st.excluded.contains ch)) &&
  st.required.all (fun rp =>
    word.holds rp.1 &&
    decide (∀ i : Fin 5, st.confirmed i = none → word.get i = rp.1 → i ∉ rp.2))

/-- `FeedbackMap<Vec<Word>>` from `src/guess.rs`: an association vector
kept sorted by the key's `to_u64` (the type's `Ord`). -/
abbrev FeedbackMap := List (WordFeedback × List Word)

/-- `get_or_insert_with` + `push` on a `FeedbackMap`: locate the key by
binary search in the sorted vector (here: the first key not below it);
on a hit append the word to that bucket, on a miss insert a fresh
singleton bucket at the sorted position. -/
def fmInsert (key : WordFeedback) (w : Word) : FeedbackMap → FeedbackMap
  | [] => [(key, [w])]
  | (k, ws) :: rest =>
      if key = k then (k, ws ++ [w]) :: rest
      else if key.to_u64 < k.to_u64 then (key, [w]) :: (k, ws) :: rest
      else (k, ws) :: fmInsert key w rest

/-- The bucket map one probe `guess` induces on `cands` in
`encode_burner`: fold the candidates in order, grouping each `word` by
`check_word(word, guess)` (the corresponding cell of the bulk-graded
`buf`). -/
def gradeRow (guess : Word) (cands : List Word) : FeedbackMap :=
  cands.foldl (fun m w => fmInsert (check_word w guess) w m) []

/-- The first sort key of `encode_burner`: how many already-known letters
(`excluded`, then the `required` letters, then the `confirmed` entries in
slot order) the probe word reuses, duplicates across the three chains
counted as in the source. -/
def Guesser.knownCount (st : Guesser) (w : Word) : Nat :=
  ((st.excluded ++ st.required.map Prod.fst ++
      (List.finRange 5).filterMap st.confirmed).filter
    (fun ch => w.holds ch)).length

/-- The second sort key of `encode_burner`: `usize::MAX - m.len()`
(ascending), i.e. descending bucket count. -/
def bucketCountKey (m : FeedbackMap) : Nat := 2 ^ 64 - 1 - m.length

/-- The third sort key of `encode_burner`, the "potency cost":
`Σ bucket_len.saturating_pow(4)` summed as a `usize` (hence the explicit
`% 2 ^ 64`; at every call site the true sum is far below `2 ^ 64`). -/
def potencyKey (m : FeedbackMap) : Nat :=
  ((m.map (fun kv => min (kv.2.length ^ 4) (2 ^ 64 - 1))).sum) % 2 ^ 64

/-- The ranked probe list built by `encode_burner` (`src/guess.rs`):
partition every dictionary word against the current candidates, keep the
probes with more than 2 buckets, then apply the four stable sorts in
source order (known-letter count, bucket count, potency, distinct
letters) — so the *last* key, distinct letters, is the primary one. -/
def rankedTiebreakers (dict : List Word) (st : Guesser) :
    List (Word × FeedbackMap) :=
  stableSortBy (fun gm => !gm.1.isUnique)
    (stableSortBy (fun gm => potencyKey gm.2)
      (stableSortBy (fun gm => bucketCountKey gm.2)
        (stableSortBy (fun gm => st.knownCount gm.1)
          ((dict.map (fun g => (g, gradeRow g st.candidates))).filter
            (fun gm => 2 < gm.2.length)))))

/-- The bucket sizes of a `FeedbackMap`, in key order
(`m.values().map(|v| v.len())`). -/
def bucketSizes (m : FeedbackMap) : List Nat := m.map (fun kv => kv.2.length)

/-- The comparison inside `encode_burner`'s `find_map`: a probe wins
against the organic partition on strictly more buckets, loses on strictly
fewer; on a tie the smaller largest bucket wins, and on a further tie the
smaller bucket-size sum wins.  The largest bucket is `foldl max 0`, which
agrees with the source's `Option`-valued `max()` because the tie branch
only compares maps of equal bucket count `> 2` (hence both nonempty). -/
def beats (m organic : FeedbackMap) : Bool :=
  match compare m.length organic.length with
  | .lt => false
  | .gt => true
  | .eq =>
      match compare ((bucketSizes m).foldl max 0)
          ((bucketSizes organic).foldl max 0) with
      | .lt => true
      | .gt => false
      | .eq => (bucketSizes m).sum < (bucketSizes organic).sum

/-- `Guesser::encode_burner` from `src/guess.rs`: build the organic
partition (the one `candidates[0]` induces), and return the first of the
top 5 ranked probes that beats it.  Empty `candidates` — where the source
would panic indexing `candidates[0]`; `prune` only calls this with 3–26
candidates — yields `none`. -/
def Guesser.encode_burner (st : Guesser) (dict : List Word) : Option Word :=
  match st.candidates with
  | [] => none
  | c0 :: _ =>
      let organic := gradeRow c0 st.candidates
      (((rankedTiebreakers dict st).take 5).find?
          (fun gm => beats gm.2 organic)).map Prod.fst

/-- `Guesser::prune` from `src/guess.rs`: filter `candidates` by the
`include` closure, re-sort with the frequency heuristic, and when
`turn < 6` and 3–26 candidates survive, insert a winning tiebreaker (if
any) at the front. -/
def Guesser.prune (st : Guesser) (dict : List Word) (turn : Nat) : Guesser :=
  if turn < 6 ∧ 3 ≤ (sort_by_frequency (st.candidates.filter st.keeps)).length ∧
      (sort_by_frequency (st.candidates.filter st.keeps)).length ≤ 26 then
    match Guesser.encode_burner
        { st with candidates := sort_by_frequency (st.candidates.filter st.keeps) }
        dict with
    | some tb =>
        { st with candidates :=
            tb :: sort_by_frequency (st.candidates.filter st.keeps) }
    | none => { st with candidates := sort_by_frequency (st.candidates.filter st.keeps) }
  else { st with candidates := sort_by_frequency (st.candidates.filter st.keeps) }

/-- `Guesser::new` from `src/guess.rs`: candidates initialized to the full
dictionary (`FIVE_LETTER_WORDS`, already frequency-sorted by the
dictionary provider), empty constraint sets. -/
def Guesser.new (dict : List Word) : Guesser :=
  { candidates := dict, excluded := [], required := [],
    confirmed := fun _ => none }

/-- Honest feedback for guess `g` against secret `s`, as the self-play
driver in `src/main.rs` feeds it to `analyze`:
slot `i` carries `(g[i], check_word(s, g)[i])`. -/
def honestChars (s g : Word) (i : Fin 5) : Letter × LetterFeedback :=
  (g.get i, (check_word s g).get i)

/-- One honestly-graded turn as driven by `src/main.rs`: `analyze` on the
feedback for guess `g`, then `prune`. -/
def playTurn (dict : List Word) (s : Word) (turn : Nat) (st : Guesser)
    (g : Word) : Option Guesser :=
  (st.analyze (honestChars s g)).map (fun st1 => st1.prune dict turn)

/-- Fold a sequence of honestly-graded turns, numbering them from `turn`. -/
def playFrom (dict : List Word) (s : Word) : Nat → Guesser → List Word →
    Option Guesser
  | _, st, [] => some st
  | turn, st, g :: gs =>
      (playTurn dict s turn st g).bind
        (fun st' => playFrom dict s (turn + 1) st' gs)

/-- A full honestly-graded game from the fresh `Guesser`, turns numbered
from 1 as in `src/main.rs`. -/
def playGame (dict : List Word) (s : Word) (gs : List Word) : Option Guesser :=
  playFrom dict s 1 (Guesser.new dict) gs

/-- The row-major `(guess, word)` cross product traversed by
`CartesianProduct` in `grade_many` (`src/play.rs`): guesses drive the
outer iterator, words the inner one. -/
def workPairs (guesses words : List Word) : List (Word × Word) :=
  guesses.flatMap (fun g => words.map (fun w => (g, w)))

/-- The sequential strategy of `grade_many` (`src/play.rs`): buffer cell
`k = i·|words| + j` receives `check_word(words[j], guesses[i])`. -/
def grade_matrix (guesses words : List Word) : List WordFeedback :=
  (workPairs guesses words).map (fun gw => check_word gw.2 gw.1)

/-- The threaded strategy of `grade_many` (`src/play.rs`): work items —
each a `(guess, word)` pair zipped with its own buffer cell — are handed
out in chunks under a mutex and each worker writes only its items' cells.
The model lets the scheduler process cells in an arbitrary order: an
execution is a list of cell indices, each write storing the grade of that
cell's own pair. -/
def threadExec (guesses words : List Word) (buffer : List WordFeedback)
    (order : List Nat) : List WordFeedback :=
  order.foldl (fun buf k =>
    match (workPairs guesses words)[k]? with
    | some gw => buf.set k (check_word gw.2 gw.1)
    | none => buf) buffer

/-- Modelled from the spec: the "vectorized per-letter-equality form" of
the grader (§4.3, §8) has no implementation under `src/` (only the
sequential and threaded strategies appear in `src/play.rs`).  Following
the spec's words, slot `i` is computed from the per-letter equality masks
`eqRow i j ↔ guess[i] = word[j]`: Confirmed on the diagonal bit, else
Required if any bit of row `i` is set, else Excluded. -/
def check_word_vec (word guess : Word) : WordFeedback :=
  ⟨(List.finRange 5).map (fun i =>
      let eqRow := fun j : Fin 5 => decide (guess.get i = word.get j)
      if eqRow i then LetterFeedback.Confirmed
      else if (List.finRange 5).any eqRow then LetterFeedback.Required
      else LetterFeedback.Excluded),
   by simp⟩

/-- An ASCII letter of either case, as C9's claim words "ASCII letters
regardless of case". -/
def asciiAlpha (b : Nat) : Prop := (65 ≤ b ∧ b ≤ 90) ∨ (97 ≤ b ∧ b ≤ 122)

instance (b : Nat) : Decidable (asciiAlpha b) := by
  unfold asciiAlpha; infer_instance

/-- All 243 feedback signatures, enumerated slot by slot. -/
def allFeedbacks : List WordFeedback :=
  [LetterFeedback.Excluded, .Required, .Confirmed].flatMap (fun a =>
  [LetterFeedback.Excluded, .Required, .Confirmed].flatMap (fun b =>
  [LetterFeedback.Excluded, .Required, .Confirmed].flatMap (fun c =>
  [LetterFeedback.Excluded, .Required, .Confirmed].flatMap (fun d =>
  [LetterFeedback.Excluded, .Required, .Confirmed].map (fun e =>
    ⟨[a, b, c, d, e], rfl⟩)))))

/-- The honesty invariant tying a `Guesser` state to a secret `s`: every
confirmed slot holds the secret's letter, every excluded letter is absent
from the secret, and every required entry names a letter the secret
contains, with a forbidden-position set avoiding all of that letter's
slots in the secret.  Honest feedback (grading the guess against `s`)
establishes and preserves this. -/
def honestInv (s : Word) (st : Guesser) : Prop :=
  (∀ i : Fin 5, ∀ b, st.confirmed i = some b → s.get i = b) ∧
  (∀ ch ∈ st.excluded, ∀ i : Fin 5, s.get i ≠ ch) ∧
  (∀ rp ∈ st.required,
    (∃ i : Fin 5, s.get i = rp.1) ∧ ∀ i ∈ rp.2, s.get i ≠ rp.1)

instance (s : Word) (st : Guesser) : Decidable (honestInv s st) := by
  unfold honestInv; infer_instance

/-- The candidate-retention condition as C4's claim words it (stated from
the spec, for comparison with the code's `Guesser.keeps`): (a) every
confirmed slot matches; (b) no excluded letter at any position; (c) every
required letter occurs at some slot that is not confirmed to a different
letter and is not in that letter's forbidden-position set. -/
def claimedKeeps (st : Guesser) (word : Word) : Prop :=
  (∀ i : Fin 5, ∀ b, st.confirmed i = some b → word.get i = b) ∧
  (∀ i : Fin 5, word.get i ∉ st.excluded) ∧
  (∀ rp ∈ st.required,
    ∃ i : Fin 5, word.get i = rp.1 ∧
      isOtherConfirmed rp.1 (st.confirmed i) = false ∧ i ∉ rp.2)

instance (st : Guesser) (w : Word) : Decidable (claimedKeeps st w) := by
  unfold claimedKeeps; infer_instance

/-- C4's counterexample word: "AABCD", holding the required letter A both
at a forbidden slot (0) and at a free slot (1). -/
def cexWordC4 : Word := ⟨[.A, .A, .B, .C, .D], rfl⟩

/-- C4's counterexample state: letter A is required with forbidden
position 0 and nothing else is known. -/
def cexStateC4 : Guesser :=
  { candidates := [cexWordC4], excluded := [], required := [(.A, {0})],
    confirmed := fun _ => none }

/-- C5's witness state: letter A is required with forbidden positions
0–3, so slot 4 is its single possible slot. -/
def pigeonStateC5 : Guesser :=
  { candidates := [], excluded := [],
    required := [(.A, {0, 1, 2, 3})], confirmed := fun _ => none }

/-- C6's witness state: letter A is required yet forbidden at all five
positions — a contradiction. -/
def contraStateC6 : Guesser :=
  { candidates := [], excluded := [],
    required := [(.A, {0, 1, 2, 3, 4})], confirmed := fun _ => none }

/-- A lexicographic refinement step: order first by the key `k`, and
among equal keys defer to `R`.  A stable sort by `k` of a list ordered by
`R` yields a list ordered by `lexKey k R`, so chaining the four stable
sorts of `encode_burner` orders the result by the nested `lexKey` with
the *last* sort key outermost. -/
@[reducible]
def lexKey {α K : Type} [LinearOrder K] (k : α → K) (R : α → α → Prop)
    (a b : α) : Prop :=
  k a < k b ∨ (k a = k b ∧ R a b)

instance {α K : Type} [LinearOrder K] (k : α → K) (R : α → α → Prop)
    [DecidableRel R] : DecidableRel (lexKey k R) := fun a b => by
  unfold lexKey; infer_instance

instance trueRel_decidable {α : Type} :
    DecidableRel (fun (_ _ : α) => True) := fun _ _ => isTrue trivial

/-- The 5-distinct-letter probe "ABCDE" of the C7 and C8
counterexamples. -/
def wABCDE : Word := ⟨[.A, .B, .C, .D, .E], rfl⟩

/-- C7's probe with a repeated letter, "BBCDD". -/
def cexProbeY7 : Word := ⟨[.B, .B, .C, .D, .D], rfl⟩

/-- C7's counterexample state: four candidates and the single excluded
letter A (which appears in "ABCDE" but not "BBCDD"). -/
def cexStC7 : Guesser :=
  { candidates := [⟨[.B, .B, .B, .B, .B], rfl⟩, ⟨[.C, .C, .C, .C, .C], rfl⟩,
      ⟨[.D, .D, .D, .D, .D], rfl⟩, ⟨[.B, .C, .B, .C, .B], rfl⟩],
    excluded := [.A], required := [], confirmed := fun _ => none }

/-- C7's counterexample dictionary: just the two probes. -/
def cexDictC7 : List Word := [wABCDE, cexProbeY7]

/-- C8's counterexample organic guess "FFGGE" (`candidates[0]`). -/
def c8c0 : Word := ⟨[.F, .F, .G, .G, .E], rfl⟩

/-- C8's counterexample candidates: seven repeated-letter words whose
partition by "FFGGE" has 4 buckets of sizes {1,2,2,2} (max 2) and whose
partition by the probe "ABCDE" has 5 buckets of sizes {3,1,1,1,1}
(max 3). -/
def cexStC8 : Guesser :=
  { candidates := [c8c0,
      ⟨[.I, .I, .J, .J, .K], rfl⟩, ⟨[.A, .A, .I, .J, .K], rfl⟩,
      ⟨[.F, .I, .I, .J, .K], rfl⟩, ⟨[.F, .B, .B, .J, .K], rfl⟩,
      ⟨[.I, .I, .G, .J, .K], rfl⟩, ⟨[.C, .C, .G, .J, .K], rfl⟩],
    excluded := [], required := [], confirmed := fun _ => none }

/-- C8's counterexample dictionary: the candidates plus the probe. -/
def cexDictC8 : List Word := cexStC8.candidates ++ [wABCDE]

/-! ### Helper lemmas about the value types -/

theorem Word.letters_eq_five (w : Word) :
    ∃ a b c d e, w.letters = [a, b, c, d, e] := by
  obtain ⟨l, hl⟩ := w
  rcases l with _ | ⟨a, _ | ⟨b, _ | ⟨c, _ | ⟨d, _ | ⟨e, _ | ⟨x, l⟩⟩⟩⟩⟩⟩ <;>
      simp only [List.length_cons, List.length_nil] at hl <;> try omega
  exact ⟨a, b, c, d, e, rfl⟩

theorem Word.mem_iff (w : Word) (ch : Letter) :
    ch ∈ w.letters ↔ ∃ i : Fin 5, w.get i = ch := by
  obtain ⟨l, hl⟩ := w
  rcases l with _ | ⟨a, _ | ⟨b, _ | ⟨c, _ | ⟨d, _ | ⟨e, _ | ⟨x, l⟩⟩⟩⟩⟩⟩ <;>
      simp only [List.length_cons, List.length_nil] at hl <;> try omega
  constructor
  · intro hm
    rcases List.mem_cons.mp hm with h | hm
    · exact ⟨0, h.symm⟩
    rcases List.mem_cons.mp hm with h | hm
    · exact ⟨1, h.symm⟩
    rcases List.mem_cons.mp hm with h | hm
    · exact ⟨2, h.symm⟩
    rcases List.mem_cons.mp hm with h | hm
    · exact ⟨3, h.symm⟩
    rcases List.mem_cons.mp hm with h | hm
    · exact ⟨4, h.symm⟩
    exact absurd hm (List.not_mem_nil ch)
  · rintro ⟨i, hi⟩
    fin_cases i <;> (rw [← hi]; simp [Word.get])

theorem Word.holds_iff (w : Word) (ch : Letter) :
    w.holds ch = true ↔ ∃ i : Fin 5, w.get i = ch := by
  have : w.holds ch = true ↔ ch ∈ w.letters := List.elem_iff
  rw [this]
  exact w.mem_iff ch

theorem Letter.to_u8_ofIndex (i : Fin 26) :
    (Letter.ofIndex i).to_u8 = 65 + i.val := by
  revert i; decide

theorem Letter.from_u8_isSome (b : Nat) :
    (Letter.from_u8 b).isSome ↔ (65 ≤ b ∧ b ≤ 90) := by
  unfold Letter.from_u8
  split <;> simp_all

theorem Letter.from_u8_to_u8 {b : Nat} {c : Letter}
    (h : Letter.from_u8 b = some c) : c.to_u8 = b := by
  unfold Letter.from_u8 at h
  split at h
  · rename_i hr
    injection h with h
    rw [← h, Letter.to_u8_ofIndex]
    show 65 + (b - 65) = b
    omega
  · exact absurd h (by simp)

/-! ### C1: the scalar feedback grader -/

theorem check_word_get (secret guess : Word) (i : Fin 5) :
    (check_word secret guess).get i =
      (if secret.get i = guess.get i then LetterFeedback.Confirmed
       else if secret.holds (guess.get i) then LetterFeedback.Required
       else LetterFeedback.Excluded) := by
  unfold check_word WordFeedback.get
  simp only [List.get_eq_getElem, List.getElem_map, List.getElem_finRange]
  exact rfl

/-- **C1.** For every pair of Words (secret, guess) and every slot `i`,
the feedback grader returns Confirmed at slot `i` iff `guess[i]` equals
`secret[i]`, else Required iff `guess[i]` occurs at any position of the
secret, else Excluded — positionally local, with no cap on the number of
Required results for a repeated letter; and grading guess "REACT" against
secret "CRATE" yields [Required, Required, Confirmed, Required,
Required]. -/
theorem check_word_per_slot :
    (∀ secret guess : Word, ∀ i : Fin 5,
      ((check_word secret guess).get i = LetterFeedback.Confirmed ↔
        guess.get i = secret.get i) ∧
      ((check_word secret guess).get i = LetterFeedback.Required ↔
        guess.get i ≠ secret.get i ∧ ∃ j : Fin 5, secret.get j = guess.get i) ∧
      ((check_word secret guess).get i = LetterFeedback.Excluded ↔
        ∀ j : Fin 5, secret.get j ≠ guess.get i)) ∧
    (check_word ⟨[.C, .R, .A, .T, .E], rfl⟩ ⟨[.R, .E, .A, .C, .T], rfl⟩).fb =
      [.Required, .Required, .Confirmed, .Required, .Required] := by
  refine ⟨fun secret guess i => ?_, by decide⟩
  rw [check_word_get]
  by_cases h1 : secret.get i = guess.get i
  · rw [if_pos h1]
    refine ⟨iff_of_true rfl h1.symm, ?_, ?_⟩
    · exact iff_of_false (by simp) (fun hc => hc.1 h1.symm)
    · exact iff_of_false (by simp) (fun hall => hall i h1)
  · rw [if_neg h1]
    by_cases h2 : secret.holds (guess.get i) = true
    · obtain ⟨j, hj⟩ := (secret.holds_iff _).mp h2
      rw [if_pos h2]
      refine ⟨iff_of_false (by simp) (fun hc => h1 hc.symm), ?_, ?_⟩
      · exact iff_of_true rfl ⟨fun hc => h1 hc.symm, ⟨j, hj⟩⟩
      · exact iff_of_false (by simp) (fun hall => hall j hj)
    · rw [if_neg h2]
      have hno : ∀ j : Fin 5, secret.get j ≠ guess.get i := by
        intro j hj
        exact h2 ((secret.holds_iff _).mpr ⟨j, hj⟩)
      refine ⟨iff_of_false (by simp) (fun hc => h1 hc.symm), ?_, ?_⟩
      · exact iff_of_false (by simp) (fun hc => hno hc.2.choose hc.2.choose_spec)
      · exact iff_of_true rfl hno

/-! ### C9: validated Word construction -/

/-- **C9 counterexample.** The bytes of lowercase "hello" are five ASCII
letters, yet `Word::from_bytes` rejects them: construction accepts only
uppercase bytes, so the claimed case-insensitive success condition is
false at this input. -/
theorem from_bytes_not_case_insensitive :
    ¬ ((Word.from_bytes 104 101 108 108 111).isSome ↔
        (asciiAlpha 104 ∧ asciiAlpha 101 ∧ asciiAlpha 108 ∧
         asciiAlpha 108 ∧ asciiAlpha 111)) := by decide

theorem from_bytes_isSome (b0 b1 b2 b3 b4 : Nat) :
    (Word.from_bytes b0 b1 b2 b3 b4).isSome ↔
      ((Letter.from_u8 b0).isSome ∧ (Letter.from_u8 b1).isSome ∧
       (Letter.from_u8 b2).isSome ∧ (Letter.from_u8 b3).isSome ∧
       (Letter.from_u8 b4).isSome) := by
  unfold Word.from_bytes
  cases Letter.from_u8 b0 <;> cases Letter.from_u8 b1 <;>
    cases Letter.from_u8 b2 <;> cases Letter.from_u8 b3 <;>
    cases Letter.from_u8 b4 <;> simp

theorem from_bytes_to_bytes {b0 b1 b2 b3 b4 : Nat} {w : Word}
    (h : Word.from_bytes b0 b1 b2 b3 b4 = some w) :
    w.to_bytes = [b0, b1, b2, b3, b4] := by
  revert h
  unfold Word.from_bytes
  cases h0 : Letter.from_u8 b0 <;> cases h1 : Letter.from_u8 b1 <;>
    cases h2 : Letter.from_u8 b2 <;> cases h3 : Letter.from_u8 b3 <;>
    cases h4 : Letter.from_u8 b4 <;> intro h <;>
    first
    | exact Option.noConfusion h
    | (injection h with h
       rw [← h]
       unfold Word.to_bytes
       simp only [List.map_cons, List.map_nil]
       rw [Letter.from_u8_to_u8 h0, Letter.from_u8_to_u8 h1,
           Letter.from_u8_to_u8 h2, Letter.from_u8_to_u8 h3,
           Letter.from_u8_to_u8 h4])

/-- **C9 (amended).** For every 5-byte input, `Word::from_bytes` succeeds
exactly when all 5 bytes are *uppercase* ASCII letters (`b'A'..=b'Z'`),
each mapped to the Letter with that discriminant; and whenever it
succeeds, converting the constructed Word back with `to_bytes` yields the
original bytes. -/
theorem from_bytes_upper_round_trip (b0 b1 b2 b3 b4 : Nat) :
    ((Word.from_bytes b0 b1 b2 b3 b4).isSome ↔
       ∀ b ∈ [b0, b1, b2, b3, b4], 65 ≤ b ∧ b ≤ 90) ∧
    (∀ w, Word.from_bytes b0 b1 b2 b3 b4 = some w →
       w.to_bytes = [b0, b1, b2, b3, b4]) := by
  constructor
  · rw [from_bytes_isSome]
    simp only [Letter.from_u8_isSome]
    constructor
    · rintro ⟨r0, r1, r2, r3, r4⟩ b hb
      simp only [List.mem_cons, List.not_mem_nil, or_false] at hb
      rcases hb with rfl | rfl | rfl | rfl | rfl
      · exact r0
      · exact r1
      · exact r2
      · exact r3
      · exact r4
    · intro hall
      exact ⟨hall b0 (by simp), hall b1 (by simp), hall b2 (by simp),
             hall b3 (by simp), hall b4 (by simp)⟩
  · intro w hw
    exact from_bytes_to_bytes hw

/-- Witness for C9 (amended) at the uppercase input "CRATE". -/
theorem from_bytes_upper_round_trip_witness :
    (Word.from_bytes 67 82 65 84 69).isSome ∧
    Word.to_bytes ⟨[.C, .R, .A, .T, .E], rfl⟩ = [67, 82, 65, 84, 69] := by
  refine ⟨(from_bytes_upper_round_trip 67 82 65 84 69).1.mpr (by decide), ?_⟩
  exact (from_bytes_upper_round_trip 67 82 65 84 69).2 _ (by decide)

/-! ### C10: the base-256 integer encoding of feedback signatures -/

theorem WordFeedback.ext_fb {f g : WordFeedback} (h : f.fb = g.fb) : f = g := by
  cases f; cases g; simpa using h

theorem WordFeedback.fb_eq_five (f : WordFeedback) :
    ∃ a b c d e, f.fb = [a, b, c, d, e] := by
  obtain ⟨l, hl⟩ := f
  rcases l with _ | ⟨a, _ | ⟨b, _ | ⟨c, _ | ⟨d, _ | ⟨e, _ | ⟨x, l⟩⟩⟩⟩⟩⟩ <;>
      simp only [List.length_cons, List.length_nil] at hl <;> try omega
  exact ⟨a, b, c, d, e, rfl⟩

theorem WordFeedback.to_u64_explicit (a b c d e : LetterFeedback) :
    (WordFeedback.mk [a, b, c, d, e] rfl).to_u64 =
      a.disc + b.disc * 256 + c.disc * 65536 + d.disc * 16777216 +
        e.disc * 4294967296 := by
  unfold WordFeedback.to_u64
  simp [List.enum, List.enumFrom]
  ring

theorem LetterFeedback.disc_le (x : LetterFeedback) : x.disc ≤ 2 := by
  cases x <;> simp [LetterFeedback.disc]

theorem LetterFeedback.disc_inj {x y : LetterFeedback}
    (h : x.disc = y.disc) : x = y := by
  cases x <;> cases y <;> simp_all [LetterFeedback.disc]

theorem WordFeedback.to_u64_inj {f g : WordFeedback}
    (h : f.to_u64 = g.to_u64) : f = g := by
  obtain ⟨a, b, c, d, e, hf⟩ := f.fb_eq_five
  obtain ⟨a', b', c', d', e', hg⟩ := g.fb_eq_five
  have hf' : f = ⟨[a, b, c, d, e], rfl⟩ := WordFeedback.ext_fb hf
  have hg' : g = ⟨[a', b', c', d', e'], rfl⟩ := WordFeedback.ext_fb hg
  subst hf'; subst hg'
  rw [WordFeedback.to_u64_explicit, WordFeedback.to_u64_explicit] at h
  have ba := a.disc_le; have bb := b.disc_le; have bc := c.disc_le
  have bd := d.disc_le; have be := e.disc_le
  have ba' := a'.disc_le; have bb' := b'.disc_le; have bc' := c'.disc_le
  have bd' := d'.disc_le; have be' := e'.disc_le
  have hq : a.disc = a'.disc ∧ b.disc = b'.disc ∧ c.disc = c'.disc ∧
      d.disc = d'.disc ∧ e.disc = e'.disc := by omega
  apply WordFeedback.ext_fb
  simp only [LetterFeedback.disc_inj hq.1, LetterFeedback.disc_inj hq.2.1,
    LetterFeedback.disc_inj hq.2.2.1, LetterFeedback.disc_inj hq.2.2.2.1,
    LetterFeedback.disc_inj hq.2.2.2.2]

theorem mem_allFeedbacks (f : WordFeedback) : f ∈ allFeedbacks := by
  obtain ⟨a, b, c, d, e, hf⟩ := f.fb_eq_five
  have hf' : f = ⟨[a, b, c, d, e], rfl⟩ := WordFeedback.ext_fb hf
  rw [hf']
  clear hf hf'
  revert a b c d e
  decide

set_option maxRecDepth 40000 in
/-- **C10.** The integer encoding `to_u64` used for map keys, ordering and
hashing agrees with structural equality of the 5-component arrays
(`to_u64 a = to_u64 b ↔ a = b`); over all feedback signatures (of which
`allFeedbacks` is an exhaustive enumeration) it takes exactly 243 distinct
values; and the derived ordering and hashing are consistent with
structural equality. -/
theorem to_u64_encoding_faithful :
    (∀ a b : WordFeedback, a.to_u64 = b.to_u64 ↔ a = b) ∧
    (∀ f : WordFeedback, f ∈ allFeedbacks) ∧
    ((allFeedbacks.map WordFeedback.to_u64).dedup.length = 243) ∧
    (∀ a b : WordFeedback, a.cmp b = Ordering.eq ↔ a = b) ∧
    (∀ a b : WordFeedback, a = b → a.hashKey = b.hashKey) := by
  refine ⟨fun a b => ⟨WordFeedback.to_u64_inj, fun h => by rw [h]⟩,
    mem_allFeedbacks, by decide, fun a b => ?_, fun a b h => by rw [h]⟩
  unfold WordFeedback.cmp
  rw [Nat.compare_eq_eq]
  exact ⟨WordFeedback.to_u64_inj, fun h => by rw [h]⟩

/-! ### C2: the bulk grader's evaluation strategies -/

theorem workPairs_length (guesses words : List Word) :
    (workPairs guesses words).length = guesses.length * words.length := by
  induction guesses with
  | nil => simp [workPairs]
  | cons g gs ih =>
      unfold workPairs at ih ⊢
      rw [List.flatMap_cons, List.length_append, List.length_map, ih]
      simp only [List.length_cons]
      ring

theorem workPairs_getElem (guesses words : List Word) (i j : Nat)
    (hi : i < guesses.length) (hj : j < words.length) :
    (workPairs guesses words)[i * words.length + j]? =
      some (guesses[i], words[j]) := by
  induction guesses generalizing i with
  | nil => simp at hi
  | cons g gs ih =>
      unfold workPairs
      rw [List.flatMap_cons]
      cases i with
      | zero =>
          rw [List.getElem?_append]
          simp [hj]
      | succ i' =>
          have hofs : (i' + 1) * words.length + j =
              words.length + (i' * words.length + j) := by ring
          rw [hofs, List.getElem?_append_right (by simp)]
          simp only [List.length_map, Nat.add_sub_cancel_left]
          have hi' : i' < gs.length := by
            simpa using Nat.lt_of_succ_lt_succ hi
          have := ih i' hi'
          unfold workPairs at this
          rw [this]
          simp

theorem grade_matrix_getElem (guesses words : List Word) (i j : Nat)
    (hi : i < guesses.length) (hj : j < words.length) :
    (grade_matrix guesses words)[i * words.length + j]? =
      some (check_word words[j] guesses[i]) := by
  unfold grade_matrix
  rw [List.getElem?_map, workPairs_getElem guesses words i j hi hj]
  rfl

theorem threadExec_getElem (guesses words : List Word)
    (buffer : List WordFeedback) (order : List Nat) (k : Nat) :
    (threadExec guesses words buffer order)[k]? =
      if k ∈ order ∧ k < (workPairs guesses words).length ∧ k < buffer.length
      then (workPairs guesses words)[k]?.map (fun gw => check_word gw.2 gw.1)
      else buffer[k]? := by
  induction order generalizing buffer with
  | nil => simp [threadExec]
  | cons o rest ih =>
      have hstep : threadExec guesses words buffer (o :: rest) =
          threadExec guesses words
            (match (workPairs guesses words)[o]? with
             | some gw => buffer.set o (check_word gw.2 gw.1)
             | none => buffer) rest := rfl
      rw [hstep]
      cases hwp : (workPairs guesses words)[o]? with
      | none =>
          rw [ih]
          have ho : ¬ o < (workPairs guesses words).length := by
            intro hlt
            rw [List.getElem?_eq_getElem hlt] at hwp
            cases hwp
          by_cases hc : k ∈ rest ∧ k < (workPairs guesses words).length ∧
              k < buffer.length
          · rw [if_pos hc, if_pos ⟨List.mem_cons_of_mem _ hc.1, hc.2⟩]
          · rw [if_neg hc, if_neg ?_]
            rintro ⟨hm, h2, h3⟩
            rcases List.mem_cons.mp hm with rfl | hm'
            · exact ho h2
            · exact hc ⟨hm', h2, h3⟩
      | some gw =>
          rw [ih]
          have ho : o < (workPairs guesses words).length := by
            by_contra hn
            rw [List.getElem?_eq_none (by omega)] at hwp
            cases hwp
          rw [List.length_set]
          by_cases hc : k ∈ rest ∧ k < (workPairs guesses words).length ∧
              k < buffer.length
          · rw [if_pos hc, if_pos ⟨List.mem_cons_of_mem _ hc.1, hc.2⟩]
          · rw [if_neg hc]
            by_cases hk : k = o
            · subst hk
              by_cases hl : k < buffer.length
              · simp [List.getElem?_set, hl, hwp, ho]
              · have hbuf : buffer[k]? = none :=
                  List.getElem?_eq_none (by omega)
                simp [List.getElem?_set, hl, hbuf]
            · rw [List.getElem?_set, if_neg (fun h => hk h.symm)]
              rw [if_neg ?_]
              rintro ⟨hm, h2, h3⟩
              rcases List.mem_cons.mp hm with rfl | hm'
              · exact hk rfl
              · exact hc ⟨hm', h2, h3⟩

theorem threadExec_eq_grade_matrix (guesses words : List Word)
    (buffer : List WordFeedback) (order : List Nat)
    (hlen : buffer.length = guesses.length * words.length)
    (hperm : order.Perm (List.range (guesses.length * words.length))) :
    threadExec guesses words buffer order = grade_matrix guesses words := by
  apply List.ext_getElem?
  intro k
  rw [threadExec_getElem]
  have hn : (workPairs guesses words).length = guesses.length * words.length :=
    workPairs_length guesses words
  have hmlen : (grade_matrix guesses words).length =
      guesses.length * words.length := by
    unfold grade_matrix
    rw [List.length_map, hn]
  have hmem : k ∈ order ↔ k < guesses.length * words.length := by
    rw [hperm.mem_iff, List.mem_range]
  by_cases hk : k < guesses.length * words.length
  · rw [if_pos ⟨hmem.mpr hk, by omega, by omega⟩]
    unfold grade_matrix
    rw [List.getElem?_map]
  · rw [if_neg (fun hcc => hk (hmem.mp hcc.1))]
    rw [List.getElem?_eq_none (by omega), List.getElem?_eq_none (by omega)]

theorem check_word_vec_eq (word guess : Word) :
    check_word_vec word guess = check_word word guess := by
  apply WordFeedback.ext_fb
  unfold check_word_vec check_word
  simp only []
  apply List.map_congr_left
  intro i _
  by_cases h1 : word.get i = guess.get i
  · simp [h1]
  · have h1' : (decide (guess.get i = word.get i)) = false := by
      simp only [decide_eq_false_iff_not]
      exact fun hc => h1 hc.symm
    simp only [h1, h1', if_false, Bool.false_eq_true]
    by_cases h2 : word.holds (guess.get i) = true
    · obtain ⟨j, hj⟩ := (word.holds_iff _).mp h2
      have hany : (List.finRange 5).any
          (fun j => decide (guess.get i = word.get j)) = true :=
        List.any_eq_true.mpr ⟨j, by simp, by simp [hj]⟩
      simp [h2, hany]
    · have hany : (List.finRange 5).any
          (fun j => decide (guess.get i = word.get j)) = false := by
        rw [List.any_eq_false]
        intro j _
        simp only [decide_eq_true_iff]
        intro hc
        exact h2 ((word.holds_iff _).mpr ⟨j, hc.symm⟩)
      simp [h2, hany]

/-- **C2.** All evaluation strategies of the bulk grader agree: the
sequential matrix holds the scalar grade of the corresponding
(word-as-secret, guess) pair at each row-major cell; the thread-parallel
execution — which writes each cell exactly once, in an arbitrary schedule
covering the cells (any permutation of them) — produces exactly the
sequential matrix; and the vectorized per-letter-equality grader agrees
with the scalar grader on every pair (hence cellwise on the matrix). -/
theorem grade_many_strategies_agree :
    (∀ guesses words : List Word, ∀ i j : Nat,
       ∀ hi : i < guesses.length, ∀ hj : j < words.length,
       (grade_matrix guesses words)[i * words.length + j]? =
         some (check_word words[j] guesses[i])) ∧
    (∀ guesses words : List Word, ∀ buffer : List WordFeedback,
       ∀ order : List Nat,
       buffer.length = guesses.length * words.length →
       order.Perm (List.range (guesses.length * words.length)) →
       threadExec guesses words buffer order = grade_matrix guesses words) ∧
    (∀ word guess : Word, check_word_vec word guess = check_word word guess) :=
  ⟨grade_matrix_getElem, threadExec_eq_grade_matrix, check_word_vec_eq⟩

/-- Witness for C2: a concrete 1×2 instance, with the threaded schedule
writing the cells in reverse order. -/
theorem grade_many_strategies_agree_witness :
    ((grade_matrix [⟨[.C, .R, .A, .T, .E], rfl⟩]
        [⟨[.R, .E, .A, .C, .T], rfl⟩, ⟨[.C, .R, .A, .T, .E], rfl⟩])[0 * 2 + 1]? =
      some (check_word ⟨[.C, .R, .A, .T, .E], rfl⟩ ⟨[.C, .R, .A, .T, .E], rfl⟩)) ∧
    (threadExec [⟨[.C, .R, .A, .T, .E], rfl⟩]
        [⟨[.R, .E, .A, .C, .T], rfl⟩, ⟨[.C, .R, .A, .T, .E], rfl⟩]
        [⟨[.Excluded, .Excluded, .Excluded, .Excluded, .Excluded], rfl⟩,
         ⟨[.Excluded, .Excluded, .Excluded, .Excluded, .Excluded], rfl⟩]
        [1, 0] =
      grade_matrix [⟨[.C, .R, .A, .T, .E], rfl⟩]
        [⟨[.R, .E, .A, .C, .T], rfl⟩, ⟨[.C, .R, .A, .T, .E], rfl⟩]) :=
  ⟨grade_many_strategies_agree.1 _ _ 0 1 (by decide) (by decide),
   grade_many_strategies_agree.2.1 _ _ _ [1, 0] (by decide) (by decide)⟩

/-! ### C4: the candidate-retention predicate of `prune` -/

theorem letter_contains_iff {l : List Letter} {a : Letter} :
    l.contains a = true ↔ a ∈ l := List.elem_iff

theorem keeps_iff (st : Guesser) (w : Word) :
    st.keeps w = true ↔
      ((∀ i : Fin 5, ∀ b, st.confirmed i = some b → w.get i = b) ∧
       (∀ i : Fin 5, w.get i ∉ st.excluded) ∧
       (∀ rp ∈ st.required, (∃ i : Fin 5, w.get i = rp.1) ∧
          ∀ i : Fin 5, st.confirmed i = none → w.get i = rp.1 → i ∉ rp.2)) := by
  unfold Guesser.keeps
  simp only [Bool.and_eq_true, decide_eq_true_iff, Bool.not_eq_true',
    List.any_eq_false, List.all_eq_true]
  constructor
  · rintro ⟨⟨ha, hb⟩, hc⟩
    refine ⟨ha, ?_, ?_⟩
    · intro i hmem
      have hm : w.get i ∈ w.letters := (w.mem_iff _).mpr ⟨i, rfl⟩
      exact (hb _ hm) (letter_contains_iff.mpr hmem)
    · intro rp hrp
      have h := hc rp hrp
      exact ⟨(w.holds_iff _).mp h.1, h.2⟩
  · rintro ⟨ha, hb, hc⟩
    refine ⟨⟨ha, ?_⟩, ?_⟩
    · intro ch hm hcontains
      obtain ⟨i, hi⟩ := (w.mem_iff ch).mp hm
      exact hb i (hi ▸ letter_contains_iff.mp hcontains)
    · intro rp hrp
      obtain ⟨⟨i, hi⟩, h2⟩ := hc rp hrp
      exact ⟨(w.holds_iff _).mpr ⟨i, hi⟩, h2⟩

/-- **C4 counterexample.** In the state where letter A is required with
forbidden position 0, the word "AABCD" satisfies the claim's retention
condition — A occurs at slot 1, which is unconfirmed and outside the
forbidden set — yet `prune`'s filter drops it, because the code demands
that *every* open occurrence of a required letter avoid the forbidden
set, and slot 0 violates that.  So the claimed iff fails at this input. -/
theorem prune_retains_claim_cex :
    cexWordC4 ∈ cexStateC4.candidates ∧ claimedKeeps cexStateC4 cexWordC4 ∧
    cexWordC4 ∉ cexStateC4.candidates.filter cexStateC4.keeps := by decide

/-- **C4 (amended).** `prune`'s filter retains a candidate word iff:
(a) at every slot with a confirmed letter the word has that letter;
(b) the word contains no excluded letter at any position; and (c) for
every required letter, the word contains that letter somewhere and every
slot holding that letter whose `confirmed` entry is empty lies outside
that letter's forbidden-position set. -/
theorem prune_retains_iff (st : Guesser) (w : Word) :
    w ∈ st.candidates.filter st.keeps ↔
      (w ∈ st.candidates ∧
       (∀ i : Fin 5, ∀ b, st.confirmed i = some b → w.get i = b) ∧
       (∀ i : Fin 5, w.get i ∉ st.excluded) ∧
       (∀ rp ∈ st.required, (∃ i : Fin 5, w.get i = rp.1) ∧
          ∀ i : Fin 5, st.confirmed i = none → w.get i = rp.1 → i ∉ rp.2)) := by
  rw [List.mem_filter, keeps_iff]

/-! ### Soundness of the pigeonhole deduction under the honesty invariant -/

theorem possible_mem_of_inv {s : Word} {st : Guesser} (hInv : honestInv s st)
    {rp : Letter × Positions} (hrp : rp ∈ st.required) :
    ∃ i : Fin 5, i ∈ st.possible rp.1 rp.2 ∧ s.get i = rp.1 := by
  obtain ⟨⟨j, hj⟩, hforb⟩ := hInv.2.2 rp hrp
  refine ⟨j, ?_, hj⟩
  unfold Guesser.possible
  rw [Finset.mem_compl, Finset.mem_union]
  rintro (hin | hin)
  · exact hforb j hin hj
  · unfold Guesser.confirmedOther at hin
    rw [Finset.mem_filter] at hin
    cases hcf : st.confirmed j with
    | none => rw [hcf] at hin; cases hin.2
    | some c =>
        have hc : s.get j = c := hInv.1 j c hcf
        rw [hcf] at hin
        have : c ≠ rp.1 := by
          have := hin.2
          unfold isOtherConfirmed at this
          simpa using this
        exact this (hc ▸ hj)

theorem pidgeon_ne_none {s : Word} {st : Guesser} (hInv : honestInv s st)
    (idx : Nat) : st.pidgeon idx ≠ none := by
  unfold Guesser.pidgeon
  cases hg : st.required[idx]? with
  | none => simp
  | some rp =>
      obtain ⟨ch, p⟩ := rp
      have hmem : (ch, p) ∈ st.required := by
        rw [List.mem_iff_getElem?]; exact ⟨idx, hg⟩
      obtain ⟨j, hj, _⟩ := possible_mem_of_inv hInv hmem
      have hpos : (st.possible ch p).card ≠ 0 := by
        have : 0 < (st.possible ch p).card := Finset.card_pos.mpr ⟨j, hj⟩
        omega
      simp only [hpos, dite_false]
      split <;> simp

theorem pidgeon_preserves {s : Word} {st st' : Guesser} {b : Bool}
    (hInv : honestInv s st) (h : st.pidgeon idx = some (b, st')) :
    honestInv s st' ∧ st'.candidates = st.candidates ∧
      st'.excluded = st.excluded := by
  unfold Guesser.pidgeon at h
  cases hg : st.required[idx]? with
  | none =>
      rw [hg] at h
      simp only [Option.some.injEq, Prod.mk.injEq] at h
      rw [← h.2]
      exact ⟨hInv, rfl, rfl⟩
  | some rp =>
      rw [hg] at h
      obtain ⟨ch, p⟩ := rp
      have hmem : (ch, p) ∈ st.required := by
        rw [List.mem_iff_getElem?]; exact ⟨idx, hg⟩
      simp only at h
      split_ifs at h with h0 h1
      · -- promotion: the single possible slot holds the secret's letter
        simp only [Option.some.injEq, Prod.mk.injEq] at h
        obtain ⟨j, hj, hsj⟩ := possible_mem_of_inv hInv hmem
        obtain ⟨x, hx⟩ := Finset.card_eq_one.mp h1
        have hjx : j = x := by rwa [hx, Finset.mem_singleton] at hj
        have hmin : (st.possible ch p).min'
            (Finset.card_pos.mp (Nat.pos_of_ne_zero h0)) = x := by
          have hm := Finset.min'_mem (st.possible ch p)
              (Finset.card_pos.mp (Nat.pos_of_ne_zero h0))
          exact Finset.mem_singleton.mp (by rw [← hx]; exact hm)
        rw [← h.2]
        refine ⟨⟨?_, hInv.2.1, ?_⟩, rfl, rfl⟩
        · intro i bb hcf
          simp only [Guesser.confirm] at hcf
          by_cases hix : i = (st.possible ch p).min'
              (Finset.card_pos.mp (Nat.pos_of_ne_zero h0))
          · rw [hix, Function.update_same] at hcf
            injection hcf with hcf
            rw [← hcf, hix, hmin, ← hjx, hsj]
          · rw [Function.update_noteq hix] at hcf
            exact hInv.1 i bb hcf
        · intro rp hrp
          have : rp ∈ st.required :=
            (List.eraseIdx_sublist st.required idx).mem hrp
          exact hInv.2.2 rp this
      · simp only [Option.some.injEq, Prod.mk.injEq] at h
        rw [← h.2]
        exact ⟨hInv, rfl, rfl⟩

theorem drainPassFrom_sound {s : Word} {st : Guesser} (hInv : honestInv s st) :
    ∀ (rem i : Nat),
      drainPassFrom st i rem ≠ none ∧
      ∀ st', drainPassFrom st i rem = some (some st') →
        honestInv s st' ∧ st'.candidates = st.candidates ∧
          st'.excluded = st.excluded := by
  intro rem
  induction rem with
  | zero => exact fun i => ⟨by simp [drainPassFrom], fun st' h => by
      simp [drainPassFrom] at h⟩
  | succ rem ih =>
      intro i
      unfold drainPassFrom
      cases hp : st.pidgeon i with
      | none => exact absurd hp (pidgeon_ne_none hInv i)
      | some r =>
          obtain ⟨b, st₁⟩ := r
          cases b with
          | true =>
              refine ⟨by simp, fun st' h => ?_⟩
              simp only [Option.some.injEq] at h
              cases h
              exact pidgeon_preserves hInv hp
          | false => exact ih (i + 1)

theorem drainPass_sound {s : Word} {st : Guesser} (hInv : honestInv s st)
    (i : Nat) :
    st.drainPass i ≠ none ∧
    ∀ st', st.drainPass i = some (some st') →
      honestInv s st' ∧ st'.candidates = st.candidates ∧
        st'.excluded = st.excluded :=
  drainPassFrom_sound hInv _ i

theorem drainLoop_sound {s : Word} :
    ∀ (fuel : Nat) (st : Guesser), honestInv s st →
      st.required.length < fuel →
      drainLoop fuel st ≠ none ∧
      ∀ st', drainLoop fuel st = some st' →
        honestInv s st' ∧ st'.candidates = st.candidates ∧
          st'.excluded = st.excluded := by
  intro fuel
  induction fuel with
  | zero => intro st _ hbound; omega
  | succ fuel ih =>
      intro st hInv _
      unfold drainLoop
      cases hdp : st.drainPass 0 with
      | none => exact absurd hdp (drainPass_sound hInv 0).1
      | some r =>
          cases r with
          | none =>
              refine ⟨by simp, fun st' h => ?_⟩
              simp only [Option.some.injEq] at h
              cases h
              exact ⟨hInv, rfl, rfl⟩
          | some st₁ =>
              have h1 := (drainPass_sound hInv 0).2 st₁ hdp
              have hlt := drainPass_some_length hdp
              have h2 := ih st₁ h1.1 (by omega)
              refine ⟨h2.1, fun st' h => ?_⟩
              have h3 := h2.2 st' h
              exact ⟨h3.1, by rw [h3.2.1, h1.2.1], by rw [h3.2.2, h1.2.2]⟩

theorem drain_sound {s : Word} {st : Guesser} (hInv : honestInv s st) :
    st.drain ≠ none ∧
    ∀ st', st.drain = some st' →
      honestInv s st' ∧ st'.candidates = st.candidates ∧
        st'.excluded = st.excluded :=
  drainLoop_sound _ st hInv (by omega)

theorem drainLoop_fix :
    ∀ (fuel : Nat) (st st' : Guesser), st.required.length < fuel →
      drainLoop fuel st = some st' → st'.drainPass 0 = some none := by
  intro fuel
  induction fuel with
  | zero => intro st st' hbound; omega
  | succ fuel ih =>
      intro st st' hbound h
      unfold drainLoop at h
      cases hdp : st.drainPass 0 with
      | none => rw [hdp] at h; cases h
      | some r =>
          rw [hdp] at h
          cases r with
          | none =>
              simp only [Option.some.injEq] at h
              cases h
              exact hdp
          | some st₁ =>
              have hlt := drainPass_some_length hdp
              exact ih st₁ st' (by omega) h

/-- When `drain` returns, the returned state is a fixpoint: a fresh full
pass over its `required` entries makes no promotion. -/
theorem drain_some_fix {st st' : Guesser} (h : st.drain = some st') :
    st'.drainPass 0 = some none :=
  drainLoop_fix _ st st' (by omega) h

theorem drainPassFrom_none_all {st : Guesser} :
    ∀ (rem i : Nat), drainPassFrom st i rem = some none →
      ∀ j, i ≤ j → j < i + rem →
        ∃ st₂, st.pidgeon j = some (false, st₂) := by
  intro rem
  induction rem with
  | zero => intro i _ j hij hjlt; omega
  | succ rem ih =>
      intro i h j hij hjlt
      unfold drainPassFrom at h
      cases hp : st.pidgeon i with
      | none => rw [hp] at h; cases h
      | some r =>
          rw [hp] at h
          obtain ⟨b, st₁⟩ := r
          cases b with
          | true => simp at h
          | false =>
              by_cases hji : j = i
              · exact ⟨st₁, hji ▸ hp⟩
              · exact ih (i + 1) h j (by omega) (by omega)

theorem drainPass_none_all {st : Guesser}
    (h : st.drainPass 0 = some none) :
    ∀ j, j < st.required.length →
      ∃ st₂, st.pidgeon j = some (false, st₂) := by
  intro j hjlt
  exact drainPassFrom_none_all _ 0 h j (by omega) (by omega)

theorem pidgeon_false_card {st st₂ : Guesser} {j : Nat} {ch : Letter}
    {p : Positions} (hg : st.required[j]? = some (ch, p))
    (h : st.pidgeon j = some (false, st₂)) :
    2 ≤ (st.possible ch p).card := by
  unfold Guesser.pidgeon at h
  rw [hg] at h
  simp only at h
  split_ifs at h with h0 h1
  · simp at h
  · omega

/-! ### Honest feedback preserves the invariant through `analyze` -/

theorem mem_insertExcluded {ch x : Letter} {l : List Letter}
    (h : x ∈ insertExcluded ch l) : x = ch ∨ x ∈ l := by
  induction l with
  | nil => simpa [insertExcluded] using h
  | cons c rest ih =>
      unfold insertExcluded at h
      split_ifs at h with h1 h2
      · exact Or.inr h
      · rcases List.mem_cons.mp h with rfl | h'
        · exact Or.inl rfl
        · exact Or.inr h'
      · rcases List.mem_cons.mp h with rfl | h'
        · exact Or.inr (List.mem_cons_self _ _)
        · rcases ih h' with h'' | h''
          · exact Or.inl h''
          · exact Or.inr (List.mem_cons_of_mem _ h'')

theorem requiredInsert_prop {P : Letter × Positions → Prop} {ch : Letter}
    {pos : Fin 5} :
    ∀ {l : List (Letter × Positions)},
      (∀ rp ∈ l, P rp) →
      P (ch, {pos}) →
      (∀ p, P (ch, p) → P (ch, insert pos p)) →
      ∀ rp ∈ (requiredInsert ch pos l).2, P rp := by
  intro l
  induction l with
  | nil =>
      intro _ hnew _ rp hm
      simp only [requiredInsert, List.mem_singleton] at hm
      rw [hm]
      exact hnew
  | cons cp rest ih =>
      intro hl hnew hadd rp hm
      obtain ⟨c, p⟩ := cp
      unfold requiredInsert at hm
      split_ifs at hm with h1 h2
      · rcases List.mem_cons.mp hm with rfl | h'
        · subst h1
          exact hadd p (hl _ (List.mem_cons_self _ _))
        · exact hl _ (List.mem_cons_of_mem _ h')
      · rcases List.mem_cons.mp hm with rfl | h'
        · exact hnew
        · exact hl _ h'
      · rcases List.mem_cons.mp hm with rfl | h'
        · exact hl _ (List.mem_cons_self _ _)
        · exact ih (fun rp2 h2m => hl _ (List.mem_cons_of_mem _ h2m))
            hnew hadd rp h'

theorem mem_removeRequired {ch : Letter} {rp : Letter × Positions}
    {l : List (Letter × Positions)} (h : rp ∈ removeRequired ch l) :
    rp ∈ l := by
  induction l with
  | nil => simpa [removeRequired] using h
  | cons cp rest ih =>
      obtain ⟨c, p⟩ := cp
      unfold removeRequired at h
      split_ifs at h with h1
      · exact List.mem_cons_of_mem _ h
      · rcases List.mem_cons.mp h with rfl | h'
        · exact List.mem_cons_self _ _
        · exact List.mem_cons_of_mem _ (ih h')

theorem Word.ext_letters {a b : Word} (h : a.letters = b.letters) : a = b := by
  cases a; cases b; simpa using h

theorem Word.map_get_finRange (w : Word) :
    (List.finRange 5).map w.get = w.letters := by
  obtain ⟨l, hl⟩ := w
  rcases l with _ | ⟨a, _ | ⟨b, _ | ⟨c, _ | ⟨d, _ | ⟨e, _ | ⟨x, l⟩⟩⟩⟩⟩⟩ <;>
      simp only [List.length_cons, List.length_nil] at hl <;> try omega
  rfl

theorem Word.ext_get {a b : Word} (h : ∀ i : Fin 5, a.get i = b.get i) :
    a = b := by
  apply Word.ext_letters
  rw [← a.map_get_finRange, ← b.map_get_finRange]
  exact List.map_congr_left (fun i _ => h i)

theorem wordOf_honest (s g : Word) : wordOf (honestChars s g) = g := by
  apply Word.ext_letters
  show (List.finRange 5).map (fun i => g.get i) = g.letters
  exact g.map_get_finRange

theorem allConfirmed_honest_iff (s g : Word) :
    allConfirmed (honestChars s g) = true ↔ g = s := by
  unfold allConfirmed
  rw [decide_eq_true_iff]
  constructor
  · intro hall
    apply Word.ext_get
    intro i
    have hi : (check_word s g).get i = LetterFeedback.Confirmed := hall i
    rw [check_word_get] at hi
    by_cases h : s.get i = g.get i
    · exact h.symm
    · rw [if_neg h] at hi
      split_ifs at hi <;> cases hi
  · intro he i
    show (check_word s g).get i = LetterFeedback.Confirmed
    rw [check_word_get, he]
    simp

theorem analyzeStep_honest {s : Word} (g : Word) {st : Guesser}
    (hInv : honestInv s st) (i : Fin 5) :
    ∃ st', st.analyzeStep i (honestChars s g i).1 (honestChars s g i).2 =
        some st' ∧ honestInv s st' ∧ st'.candidates = st.candidates := by
  have hfst : (honestChars s g i).1 = g.get i := rfl
  have hsnd : (honestChars s g i).2 = (check_word s g).get i := rfl
  rw [hfst, hsnd, check_word_get]
  by_cases h1 : s.get i = g.get i
  · rw [if_pos h1]
    refine ⟨_, rfl, ⟨?_, hInv.2.1, ?_⟩, rfl⟩
    · intro j b hcf
      have hcf' : Function.update st.confirmed i (some (g.get i)) j = some b :=
        hcf
      by_cases hij : j = i
      · subst hij
        rw [Function.update_same] at hcf'
        injection hcf' with hcf'
        rw [← hcf', h1]
      · rw [Function.update_noteq hij] at hcf'
        exact hInv.1 j b hcf'
    · intro rp hm
      exact hInv.2.2 rp (mem_removeRequired hm)
  · rw [if_neg h1]
    by_cases h2 : s.holds (g.get i) = true
    · rw [if_pos h2]
      have hInv2 : honestInv s
          { st with required :=
              (requiredInsert (g.get i) i st.required).2 } := by
        refine ⟨hInv.1, hInv.2.1, ?_⟩
        apply requiredInsert_prop hInv.2.2
        · obtain ⟨j, hj⟩ := (s.holds_iff _).mp h2
          refine ⟨⟨j, hj⟩, ?_⟩
          intro k hk
          rw [Finset.mem_singleton] at hk
          subst hk
          exact h1
        · rintro p ⟨hex, hforb⟩
          refine ⟨hex, ?_⟩
          intro k hk
          rw [Finset.mem_insert] at hk
          rcases hk with rfl | hk
          · exact h1
          · exact hforb k hk
      cases hp : Guesser.pidgeon
          { st with required := (requiredInsert (g.get i) i st.required).2 }
          (requiredInsert (g.get i) i st.required).1 with
      | none => exact absurd hp (pidgeon_ne_none hInv2 _)
      | some pr =>
          obtain ⟨b, st₂⟩ := pr
          have hpres := pidgeon_preserves hInv2 hp
          refine ⟨st₂, ?_, hpres.1, hpres.2.1⟩
          show (Guesser.pidgeon _ _).map (fun x => x.2) = some st₂
          rw [hp]
          rfl
    · rw [if_neg h2]
      refine ⟨_, rfl, ⟨hInv.1, ?_, hInv.2.2⟩, rfl⟩
      intro ch' hm j
      rcases mem_insertExcluded hm with rfl | hm'
      · intro he
        exact h2 ((s.holds_iff _).mpr ⟨j, he⟩)
      · exact hInv.2.1 ch' hm' j

theorem analyzeSteps_honest {s : Word} (g : Word) :
    ∀ (L : List (Fin 5)) (st : Guesser), honestInv s st →
      ∃ st', L.foldlM (fun st2 i =>
          st2.analyzeStep i (honestChars s g i).1 (honestChars s g i).2) st =
        some st' ∧ honestInv s st' ∧ st'.candidates = st.candidates := by
  intro L
  induction L with
  | nil => exact fun st h => ⟨st, rfl, h, rfl⟩
  | cons i rest ih =>
      intro st h
      obtain ⟨st1, hstep, hInv1, hc1⟩ := analyzeStep_honest g h i
      obtain ⟨st', hrest, hInv', hc'⟩ := ih st1 hInv1
      refine ⟨st', ?_, hInv', by rw [hc', hc1]⟩
      show (st.analyzeStep i _ _).bind _ = some st'
      rw [hstep]
      exact hrest

theorem analyze_honest {s : Word} (g : Word) {st : Guesser}
    (hInv : honestInv s st) (hs : s ∈ st.candidates) :
    ∃ st', st.analyze (honestChars s g) = some st' ∧ honestInv s st' ∧
      s ∈ st'.candidates := by
  unfold Guesser.analyze
  have hInv1 : honestInv s
        (if allConfirmed (honestChars s g) then st
         else { st with candidates :=
            st.candidates.erase (wordOf (honestChars s g)) }) ∧
      s ∈ (if allConfirmed (honestChars s g) then st
         else { st with candidates :=
            st.candidates.erase (wordOf (honestChars s g)) }).candidates := by
    by_cases hac : allConfirmed (honestChars s g) = true
    · rw [if_pos hac]
      exact ⟨hInv, hs⟩
    · rw [if_neg hac]
      refine ⟨⟨hInv.1, hInv.2.1, hInv.2.2⟩, ?_⟩
      show s ∈ st.candidates.erase (wordOf (honestChars s g))
      rw [wordOf_honest]
      have hgs : g ≠ s := fun he => hac ((allConfirmed_honest_iff s g).mpr he)
      exact (List.mem_erase_of_ne (fun he => hgs he.symm)).mpr hs
  obtain ⟨st2, hsteps, hInv2, hc2⟩ :=
    analyzeSteps_honest g (List.finRange 5) _ hInv1.1
  have hd := drain_sound hInv2
  cases hdr : st2.drain with
  | none => exact absurd hdr hd.1
  | some st' =>
      have h3 := hd.2 st' hdr
      refine ⟨st', ?_, h3.1, ?_⟩
      · rw [hsteps]
        exact hdr
      · rw [h3.2.1, hc2]
        exact hInv1.2

/-! ### C3: the secret survives every honest analyze+prune cycle -/

theorem insSorted_perm {α K : Type} [LinearOrder K] (k : α → K) (a : α) :
    ∀ l : List α, (insSorted k a l).Perm (a :: l) := by
  intro l
  induction l with
  | nil => simp [insSorted]
  | cons b rest ih =>
      unfold insSorted
      split_ifs with h
      · exact (ih.cons b).trans (List.Perm.swap a b rest)
      · exact List.Perm.refl _

theorem stableSortBy_perm {α K : Type} [LinearOrder K] (k : α → K) :
    ∀ l : List α, (stableSortBy k l).Perm l := by
  intro l
  induction l with
  | nil => exact List.Perm.refl _
  | cons a rest ih =>
      exact (insSorted_perm k a (stableSortBy k rest)).trans (ih.cons a)

theorem sort_by_frequency_perm (words : List Word) :
    (sort_by_frequency words).Perm words :=
  (stableSortBy_perm _ _).trans (stableSortBy_perm _ _)

theorem keeps_of_inv {s : Word} {st : Guesser} (hInv : honestInv s st) :
    st.keeps s = true := by
  rw [keeps_iff]
  refine ⟨hInv.1, ?_, ?_⟩
  · intro i hmem
    exact hInv.2.1 _ hmem i rfl
  · intro rp hrp
    obtain ⟨hex, hforb⟩ := hInv.2.2 rp hrp
    refine ⟨?_, ?_⟩
    · obtain ⟨i, hi⟩ := hex
      exact ⟨i, hi⟩
    · intro i _ hgi hip
      exact hforb i hip hgi

theorem prune_preserves {s : Word} {st : Guesser} (hInv : honestInv s st)
    (hs : s ∈ st.candidates) (dict : List Word) (turn : Nat) :
    honestInv s (st.prune dict turn) ∧ s ∈ (st.prune dict turn).candidates := by
  have hmem : s ∈ sort_by_frequency (st.candidates.filter st.keeps) := by
    rw [(sort_by_frequency_perm _).mem_iff, List.mem_filter]
    exact ⟨hs, keeps_of_inv hInv⟩
  unfold Guesser.prune
  split_ifs with hcond
  · cases hb : Guesser.encode_burner
        { st with candidates := sort_by_frequency (st.candidates.filter st.keeps) }
        dict with
    | none =>
        simp only [hb]
        exact ⟨⟨hInv.1, hInv.2.1, hInv.2.2⟩, hmem⟩
    | some tb =>
        simp only [hb]
        exact ⟨⟨hInv.1, hInv.2.1, hInv.2.2⟩, List.mem_cons_of_mem _ hmem⟩
  · exact ⟨⟨hInv.1, hInv.2.1, hInv.2.2⟩, hmem⟩

theorem playTurn_preserves {dict : List Word} {s : Word} {st : Guesser}
    (hInv : honestInv s st) (hs : s ∈ st.candidates) (turn : Nat) (g : Word) :
    ∃ st', playTurn dict s turn st g = some st' ∧ honestInv s st' ∧
      s ∈ st'.candidates := by
  obtain ⟨st1, ha, hInv1, hs1⟩ := analyze_honest g hInv hs
  refine ⟨st1.prune dict turn, ?_, prune_preserves hInv1 hs1 dict turn⟩
  unfold playTurn
  rw [ha]
  rfl

theorem playFrom_preserves (dict : List Word) {s : Word} :
    ∀ (gs : List Word) (turn : Nat) (st : Guesser),
      honestInv s st → s ∈ st.candidates →
      ∃ st', playFrom dict s turn st gs = some st' ∧ honestInv s st' ∧
        s ∈ st'.candidates := by
  intro gs
  induction gs with
  | nil => exact fun turn st hInv hs => ⟨st, rfl, hInv, hs⟩
  | cons g rest ih =>
      intro turn st hInv hs
      obtain ⟨st1, ht, hInv1, hs1⟩ := playTurn_preserves hInv hs turn g
      obtain ⟨st', hrest, hInv', hs'⟩ := ih (turn + 1) st1 hInv1 hs1
      refine ⟨st', ?_, hInv', hs'⟩
      show (playTurn dict s turn st g).bind _ = some st'
      rw [ht]
      exact hrest

/-- **C3.** For every secret word in the dictionary, if each turn's
feedback fed to `analyze` is the honest grading of that turn's guess
against the secret, then every `analyze`+`prune` cycle succeeds and the
secret is still a member of `candidates` afterwards, for any game of up
to six turns (the guesses `gs` being arbitrary). -/
theorem secret_preserved (dict : List Word) (s : Word) (gs : List Word)
    (hs : s ∈ dict) (hlen : gs.length ≤ 6) :
    ∃ st', playGame dict s gs = some st' ∧ s ∈ st'.candidates := by
  have hInv0 : honestInv s (Guesser.new dict) := by
    refine ⟨?_, ?_, ?_⟩
    · intro i b h
      cases h
    · intro ch h
      cases h
    · intro rp h
      cases h
  obtain ⟨st', h1, _, h3⟩ :=
    playFrom_preserves dict gs 1 (Guesser.new dict) hInv0 hs
  exact ⟨st', h1, h3⟩

/-- Witness for C3: a 3-word dictionary, secret "CRATE", guessing
"REACT" then "CRATE". -/
theorem secret_preserved_witness :
    (⟨[.C, .R, .A, .T, .E], rfl⟩ : Word) ∈
        ([⟨[.C, .R, .A, .T, .E], rfl⟩, ⟨[.R, .E, .A, .C, .T], rfl⟩,
          ⟨[.T, .R, .A, .C, .E], rfl⟩] : List Word) ∧
    ([⟨[.R, .E, .A, .C, .T], rfl⟩, ⟨[.C, .R, .A, .T, .E], rfl⟩] :
        List Word).length ≤ 6 ∧
    ∃ st', playGame
        [⟨[.C, .R, .A, .T, .E], rfl⟩, ⟨[.R, .E, .A, .C, .T], rfl⟩,
         ⟨[.T, .R, .A, .C, .E], rfl⟩]
        ⟨[.C, .R, .A, .T, .E], rfl⟩
        [⟨[.R, .E, .A, .C, .T], rfl⟩, ⟨[.C, .R, .A, .T, .E], rfl⟩] =
          some st' ∧
      (⟨[.C, .R, .A, .T, .E], rfl⟩ : Word) ∈ st'.candidates :=
  ⟨by decide, by decide,
   secret_preserved _ _ _ (by decide) (by decide)⟩

/-! ### C5 and C6: pigeonhole promotion and contradiction handling -/

/-- **C5.** Whenever a required letter's forbidden-position set together
with the positions confirmed to different letters covers all slots except
exactly one, `pidgeon` records that letter in `confirmed` at the one
remaining slot and removes it from `required`; and because `analyze`
re-runs the deduction over the remaining required letters until a full
pass produces no promotion, every required letter of a state returned by
`analyze` still has at least two possible slots. -/
theorem pigeonhole_promotion :
    (∀ (st : Guesser) (idx : Nat) (ch : Letter) (p : Positions)
       (hg : st.required[idx]? = some (ch, p))
       (h1 : (st.possible ch p).card = 1),
       st.pidgeon idx =
         some (true, { st.confirm ((st.possible ch p).min'
             (Finset.card_pos.mp (by omega))) ch with
           required := st.required.eraseIdx idx })) ∧
    (∀ (st : Guesser) (chars : Fin 5 → Letter × LetterFeedback) (st' : Guesser),
       st.analyze chars = some st' →
       ∀ rp ∈ st'.required, 2 ≤ (st'.possible rp.1 rp.2).card) := by
  constructor
  · intro st idx ch p hg h1
    unfold Guesser.pidgeon
    rw [hg]
    simp only
    rw [dif_neg (by omega)]
    rw [if_pos h1]
  · intro st chars st' ha rp hrp
    unfold Guesser.analyze at ha
    rw [Option.bind_eq_some] at ha
    obtain ⟨st2, _, hdr⟩ := ha
    have hfix := drain_some_fix hdr
    obtain ⟨idx, hgi⟩ := List.mem_iff_getElem?.mp hrp
    have hlt : idx < st'.required.length := (List.getElem?_eq_some.mp hgi).1
    obtain ⟨st₂, hp⟩ := drainPass_none_all hfix idx hlt
    exact pidgeon_false_card hgi hp

/-- Witness for C5: in `pigeonStateC5` the single open slot for A is
slot 4 and `pidgeon` promotes it; and a concrete `analyze` run returns a
state whose required letters all keep at least two possible slots. -/
theorem pigeonhole_promotion_witness :
    Guesser.pidgeon pigeonStateC5 0 =
      some (true, { pigeonStateC5.confirm
          ((pigeonStateC5.possible .A {0, 1, 2, 3}).min'
            (Finset.card_pos.mp (by decide))) .A with
        required := pigeonStateC5.required.eraseIdx 0 }) ∧
    (∀ rp ∈ (Guesser.mk [] [Letter.A] [] (fun _ => none)).required,
       2 ≤ ((Guesser.mk [] [Letter.A] [] (fun _ => none)).possible
          rp.1 rp.2).card) :=
  ⟨pigeonhole_promotion.1 _ 0 .A {0, 1, 2, 3} (by decide) (by decide),
   pigeonhole_promotion.2
     (Guesser.mk [] [] [] (fun _ => none))
     (fun _ => (.A, .Excluded))
     (Guesser.mk [] [Letter.A] [] (fun _ => none))
     (by decide)⟩

/-- **C6.** `pidgeon` takes the fatal-contradiction branch (modelled as
`none`, the `assert_ne!` panic that halts the game) exactly when the
required letter's forbidden-position set plus the slots confirmed to
other letters leaves zero possible slots — so whenever at least one slot
remains possible, it returns normally; and under the honesty invariant
(which guarantees every required letter keeps a possible slot at every
intermediate state) `analyze` always completes without the failure
branch. -/
theorem pidgeon_contradiction :
    (∀ (st : Guesser) (idx : Nat) (ch : Letter) (p : Positions),
       st.required[idx]? = some (ch, p) →
       (st.pidgeon idx = none ↔ (st.possible ch p).card = 0)) ∧
    (∀ (s g : Word) (st : Guesser), honestInv s st →
       (st.analyze (honestChars s g)).isSome = true) := by
  constructor
  · intro st idx ch p hg
    unfold Guesser.pidgeon
    rw [hg]
    simp only
    constructor
    · intro h
      by_cases h0 : (st.possible ch p).card = 0
      · exact h0
      · rw [dif_neg h0] at h
        split_ifs at h <;> cases h
    · intro h0
      rw [dif_pos h0]
  · intro s g st hInv
    unfold Guesser.analyze
    have hInv1 : honestInv s
        (if allConfirmed (honestChars s g) then st
         else { st with candidates :=
            st.candidates.erase (wordOf (honestChars s g)) }) := by
      split_ifs
      · exact hInv
      · exact ⟨hInv.1, hInv.2.1, hInv.2.2⟩
    obtain ⟨st2, hsteps, hInv2, _⟩ :=
      analyzeSteps_honest g (List.finRange 5) _ hInv1
    rw [hsteps]
    cases hdr : st2.drain with
    | none => exact absurd hdr (drain_sound hInv2).1
    | some st' =>
        show (st2.drain).isSome = true
        rw [hdr]
        rfl

/-- Witness for C6: the all-slots-forbidden state makes `pidgeon` halt
fatally, and a fully honest concrete `analyze` run completes. -/
theorem pidgeon_contradiction_witness :
    Guesser.pidgeon contraStateC6 0 = none ∧
    ((Guesser.new [⟨[.C, .R, .A, .T, .E], rfl⟩]).analyze
        (honestChars ⟨[.C, .R, .A, .T, .E], rfl⟩
          ⟨[.R, .E, .A, .C, .T], rfl⟩)).isSome = true :=
  ⟨(pidgeon_contradiction.1 contraStateC6 0 .A {0, 1, 2, 3, 4}
      (by decide)).mpr (by decide),
   pidgeon_contradiction.2 _ _ _ (by decide)⟩

/-! ### C7: the tiebreaker ranking's priority order -/

theorem insSorted_pairwise {α K : Type} [LinearOrder K] {k : α → K}
    {R : α → α → Prop} {a : α} :
    ∀ {l : List α}, List.Pairwise (lexKey k R) l → (∀ b ∈ l, R a b) →
      List.Pairwise (lexKey k R) (insSorted k a l) := by
  intro l
  induction l with
  | nil => intro _ _; simp [insSorted]
  | cons b rest ih =>
      intro hl ha
      rw [List.pairwise_cons] at hl
      obtain ⟨hb, hrest⟩ := hl
      unfold insSorted
      split_ifs with hk
      · rw [List.pairwise_cons]
        constructor
        · intro x hx
          have hmem : x ∈ a :: rest := (insSorted_perm k a rest).mem_iff.mp hx
          rcases List.mem_cons.mp hmem with rfl | hx'
          · exact Or.inl hk
          · exact hb x hx'
        · exact ih hrest (fun x hx => ha x (List.mem_cons_of_mem _ hx))
      · rw [List.pairwise_cons]
        refine ⟨?_, by rw [List.pairwise_cons]; exact ⟨hb, hrest⟩⟩
        intro x hx
        rcases List.mem_cons.mp hx with rfl | hx'
        · rcases lt_or_eq_of_le (le_of_not_lt hk) with h | h
          · exact Or.inl h
          · exact Or.inr ⟨h, ha x (List.mem_cons_self _ _)⟩
        · have hbx := hb x hx'
          have hab : k a ≤ k b := le_of_not_lt hk
          rcases hbx with h | h
          · exact Or.inl (lt_of_le_of_lt hab h)
          · rcases lt_or_eq_of_le hab with h2 | h2
            · exact Or.inl (h.1 ▸ h2)
            · exact Or.inr ⟨h2.trans h.1, ha x (List.mem_cons_of_mem _ hx')⟩

theorem stableSortBy_pairwise {α K : Type} [LinearOrder K] (k : α → K)
    {R : α → α → Prop} :
    ∀ {l : List α}, List.Pairwise R l →
      List.Pairwise (lexKey k R) (stableSortBy k l) := by
  intro l
  induction l with
  | nil => intro _; exact List.Pairwise.nil
  | cons a rest ih =>
      intro hl
      rw [List.pairwise_cons] at hl
      unfold stableSortBy
      apply insSorted_pairwise (ih hl.2)
      intro b hb
      exact hl.1 b ((stableSortBy_perm k rest).mem_iff.mp hb)

theorem pairwise_true {α : Type} : ∀ l : List α,
    List.Pairwise (fun _ _ => True) l
  | [] => List.Pairwise.nil
  | _ :: l => List.Pairwise.cons (fun _ _ => trivial) (pairwise_true l)

/-- **C7 counterexample.** With excluded = {A}, candidates
{BBBBB, CCCCC, DDDDD, BCBCB} and dictionary {ABCDE, BBCDD}, both probes
survive the filter with 4 buckets and equal potency, yet the final
ranking puts ABCDE (1 known letter reused, 5 distinct letters) ahead of
BBCDD (0 known letters, repeated letters): the ranking is *not*
lexicographic with fewest-known-letters as the most significant key, so
the claim's priority order is false at this input. -/
theorem tiebreaker_ranking_claim_cex :
    ¬ List.Pairwise
        (lexKey (fun gm => cexStC7.knownCount gm.1)
          (lexKey (fun gm => bucketCountKey gm.2)
            (lexKey (fun gm => potencyKey gm.2)
              (lexKey (fun gm => !gm.1.isUnique) (fun _ _ => True)))))
        (rankedTiebreakers cexDictC7 cexStC7) := by decide

/-- **C7 (amended).** The final ranking of the surviving probes is
lexicographic with the priority order *reversed* relative to the claim:
the four stable sorts run known-count, bucket count, potency, distinct
letters in source order, so the ranking is ordered by (1) five distinct
letters ahead of repeats, then (2) lowest potency cost (the sum over
buckets of bucket-size⁴), then (3) most buckets, then (4) fewest
already-known letters reused. -/
theorem tiebreaker_ranking_order (dict : List Word) (st : Guesser) :
    List.Pairwise
      (lexKey (fun gm => !gm.1.isUnique)
        (lexKey (fun gm => potencyKey gm.2)
          (lexKey (fun gm => bucketCountKey gm.2)
            (lexKey (fun gm => st.knownCount gm.1) (fun _ _ => True)))))
      (rankedTiebreakers dict st) := by
  unfold rankedTiebreakers
  apply stableSortBy_pairwise
  apply stableSortBy_pairwise
  apply stableSortBy_pairwise
  apply stableSortBy_pairwise
  exact pairwise_true _

/-! ### C8: what a returned tiebreaker guarantees -/

theorem ranked_mem {dict : List Word} {st : Guesser} {gm : Word × FeedbackMap}
    (h : gm ∈ rankedTiebreakers dict st) :
    gm.1 ∈ dict ∧ gm.2 = gradeRow gm.1 st.candidates ∧ 2 < gm.2.length := by
  unfold rankedTiebreakers at h
  rw [(stableSortBy_perm _ _).mem_iff] at h
  rw [(stableSortBy_perm _ _).mem_iff] at h
  rw [(stableSortBy_perm _ _).mem_iff] at h
  rw [(stableSortBy_perm _ _).mem_iff] at h
  rw [List.mem_filter] at h
  obtain ⟨hmap, hlen⟩ := h
  rw [List.mem_map] at hmap
  obtain ⟨g, hg, rfl⟩ := hmap
  exact ⟨hg, rfl, decide_eq_true_iff.mp hlen⟩

/-- **C8 counterexample.** On the seven-candidate state `cexStC8` the
selector returns the probe "ABCDE" (it wins outright with 5 buckets
against the organic guess's 4), yet its largest bucket holds 3 candidates
while the organic guess "FFGGE" (= `candidates[0]`) has largest bucket 2:
a selected probe's worst-case bucket can exceed the organic worst case,
refuting the claimed inequality at this input. -/
theorem tiebreaker_soundness_cex :
    cexStC8.candidates.head? = some c8c0 ∧
    Guesser.encode_burner cexStC8 cexDictC8 = some wABCDE ∧
    (bucketSizes (gradeRow wABCDE cexStC8.candidates)).foldl max 0 = 3 ∧
    (bucketSizes (gradeRow c8c0 cexStC8.candidates)).foldl max 0 = 2 := by
  decide

/-- **C8 (amended).** Whenever the tiebreaker selector returns a probe,
that probe strictly improves on the organic guess (`candidates[0]`) in
the selector's comparison order: it has strictly more buckets, or equally
many buckets and a strictly smaller largest bucket, or equally many
buckets, an equal largest bucket and a strictly smaller bucket-size sum.
(The claimed bound "probe's largest bucket ≤ organic's largest bucket"
does not hold in the more-buckets case, see the counterexample.) -/
theorem tiebreaker_beats_organic (dict : List Word) (st : Guesser)
    (tb c0 : Word) (rest : List Word)
    (hc : st.candidates = c0 :: rest)
    (h : st.encode_burner dict = some tb) :
    (gradeRow c0 st.candidates).length < (gradeRow tb st.candidates).length ∨
    ((gradeRow tb st.candidates).length = (gradeRow c0 st.candidates).length ∧
      (bucketSizes (gradeRow tb st.candidates)).foldl max 0 <
        (bucketSizes (gradeRow c0 st.candidates)).foldl max 0) ∨
    ((gradeRow tb st.candidates).length = (gradeRow c0 st.candidates).length ∧
      (bucketSizes (gradeRow tb st.candidates)).foldl max 0 =
        (bucketSizes (gradeRow c0 st.candidates)).foldl max 0 ∧
      (bucketSizes (gradeRow tb st.candidates)).sum <
        (bucketSizes (gradeRow c0 st.candidates)).sum) := by
  unfold Guesser.encode_burner at h
  rw [hc] at h
  simp only at h
  rw [Option.map_eq_some'] at h
  obtain ⟨gm, hfind, htb⟩ := h
  subst htb
  have hbeats := List.find?_some hfind
  have hmem := ranked_mem (List.mem_of_mem_take (List.mem_of_find?_eq_some hfind))
  rw [hc]
  rw [hmem.2.1, hc] at hbeats
  unfold beats at hbeats
  cases hcomp : compare (gradeRow gm.1 (c0 :: rest)).length
      (gradeRow c0 (c0 :: rest)).length with
  | lt => rw [hcomp] at hbeats; cases hbeats
  | gt => exact Or.inl (Nat.compare_eq_gt.mp hcomp)
  | eq =>
      rw [hcomp] at hbeats
      have hleq := Nat.compare_eq_eq.mp hcomp
      cases hcomp2 : compare
          ((bucketSizes (gradeRow gm.1 (c0 :: rest))).foldl max 0)
          ((bucketSizes (gradeRow c0 (c0 :: rest))).foldl max 0) with
      | lt =>
          exact Or.inr (Or.inl ⟨hleq, Nat.compare_eq_lt.mp hcomp2⟩)
      | gt => rw [hcomp2] at hbeats; cases hbeats
      | eq =>
          rw [hcomp2] at hbeats
          refine Or.inr (Or.inr ⟨hleq, Nat.compare_eq_eq.mp hcomp2, ?_⟩)
          exact decide_eq_true_iff.mp hbeats

/-- Witness for C8 (amended) at the counterexample instance: "ABCDE"
improves on the organic guess by bucket count. -/
theorem tiebreaker_beats_organic_witness :
    (gradeRow c8c0 cexStC8.candidates).length <
      (gradeRow wABCDE cexStC8.candidates).length ∨
    ((gradeRow wABCDE cexStC8.candidates).length =
        (gradeRow c8c0 cexStC8.candidates).length ∧
      (bucketSizes (gradeRow wABCDE cexStC8.candidates)).foldl max 0 <
        (bucketSizes (gradeRow c8c0 cexStC8.candidates)).foldl max 0) ∨
    ((gradeRow wABCDE cexStC8.candidates).length =
        (gradeRow c8c0 cexStC8.candidates).length ∧
      (bucketSizes (gradeRow wABCDE cexStC8.candidates)).foldl max 0 =
        (bucketSizes (gradeRow c8c0 cexStC8.candidates)).foldl max 0 ∧
      (bucketSizes (gradeRow wABCDE cexStC8.candidates)).sum <
        (bucketSizes (gradeRow c8c0 cexStC8.candidates)).sum) :=
  tiebreaker_beats_organic cexDictC8 cexStC8 wABCDE c8c0
    [⟨[.I, .I, .J, .J, .K], rfl⟩, ⟨[.A, .A, .I, .J, .K], rfl⟩,
     ⟨[.F, .I, .I, .J, .K], rfl⟩, ⟨[.F, .B, .B, .J, .K], rfl⟩,
     ⟨[.I, .I, .G, .J, .K], rfl⟩, ⟨[.C, .C, .G, .J, .K], rfl⟩]
    rfl (by decide)

end Wordle
